import Mathlib

/-
Verification of the query execution coordination layer of the
ODBC SQL Runner VS Code extension.

The definitions below are a shallow embedding of the TypeScript source:
  - `src/pythonRunner.ts`  (PythonRunner, SessionManager)
  - `src/sqlExecutor.ts`   (SqlExecutor)
  - `src/statementParser.ts` (splitStatements, getSqlToExecute)
Each definition carries a comment pointing at the source lines it embeds.
-/

namespace SqlRunner

/-! ## The PythonRunner query queue

`PythonRunner` (src/pythonRunner.ts) keeps a FIFO `queryQueue` of
`QueuedQuery` records and a boolean `isExecutingQuery`.  `executeQuery`
pushes an entry and synchronously triggers `processQueryQueue`, which is a
no-op when a query is already executing; otherwise it shifts the head,
marks executing, fires `onStarted`, writes the EXECUTE command, awaits the
response, settles the promise, clears the flag and recurses.

JavaScript is single threaded, so the code between two `await` points runs
atomically.  We model the runner as a state machine whose atomic actions
are exactly those uninterruptible code sections:
  - `Act.enqueue q`      : `executeQuery` pushes `q` and runs
                           `processQueryQueue` up to its `await`;
  - `Act.complete ok`    : the EXECUTE response arrives, the in-flight
                           promise settles, and `processQueryQueue` recurses
                           up to its next `await`;
  - `Act.clearPending l` : `clearPendingQueries(l)` filters the queue.
Every observable effect is recorded in an event trace. -/

/-- One entry of `queryQueue` (src/pythonRunner.ts lines 49-55).  The
`resolve`/`reject`/`onStarted` callbacks are represented by trace events. -/
structure QueuedQuery where
  sql : String
  resultSetId : String
deriving DecidableEq, Repr

/-- Observable events of the runner.
  - `enqueued id`   : `executeQuery` appended the entry to `queryQueue`;
  - `onStarted id`  : the `onStarted` callback fired (line 282-284);
  - `issue id`      : the EXECUTE command was written to the worker
                      (`sendCommand` at line 286);
  - `settle id ok`  : the entry promise resolved (`ok = true`, line 302)
                      or rejected (`ok = false`, line 304) after the
                      command settled;
  - `rejected id m` : the entry was rejected with message `m` while still
                      pending in the queue (line 322). -/
inductive Ev where
  | enqueued (id : String)
  | onStarted (id : String)
  | issue (id : String)
  | settle (id : String) (ok : Bool)
  | rejected (id : String) (msg : String)
deriving DecidableEq, Repr

/-- The mutable state of one `PythonRunner`: the pending queue and the
entry currently being executed (`isExecutingQuery = inFlight.isSome`;
the in-flight entry itself is the local `query` variable of
`processQueryQueue` during its `await`). -/
structure RunnerState where
  queryQueue : List QueuedQuery
  inFlight : Option QueuedQuery
deriving DecidableEq, Repr

/-- Atomic actions on one runner (see module comment). -/
inductive Act where
  | enqueue (q : QueuedQuery)
  | complete (ok : Bool)
  | clearPending (ids : List String)
deriving DecidableEq, Repr

/-- Model of `processQueryQueue` (src/pythonRunner.ts lines 265-290) run from its
entry to the `await` of `sendCommand`: a no-op when `isExecutingQuery`
or the queue is empty; otherwise it shifts the head, sets the flag,
invokes `onStarted` and writes the EXECUTE command. -/
def drain (s : RunnerState) : RunnerState × List Ev :=
  match s.inFlight with
  | some _ => (s, [])
  | none =>
    match s.queryQueue with
    | [] => (s, [])
    | q :: rest =>
        (⟨rest, some q⟩, [Ev.onStarted q.resultSetId, Ev.issue q.resultSetId])

/-- One atomic action.
  - `enqueue`: `executeQuery` (lines 246-260) pushes the entry and calls
    `processQueryQueue`.
  - `complete`: the `await sendCommand` of `processQueryQueue` settles
    with success (`resolve`, line 302) or failure (`reject`, line 304);
    the `finally` block clears `isExecutingQuery` and recurses (309).
    When nothing is in flight no response is awaited, so it is a no-op.
  - `clearPending`: `clearPendingQueries` (lines 317-327) filters the
    queue, rejecting every entry whose `resultSetId` is in the set. -/
def step (s : RunnerState) (a : Act) : RunnerState × List Ev :=
  match a with
  | .enqueue q =>
      let (s2, evs) := drain ⟨s.queryQueue ++ [q], s.inFlight⟩
      (s2, Ev.enqueued q.resultSetId :: evs)
  | .complete ok =>
      match s.inFlight with
      | none => (s, [])
      | some q =>
          let (s2, evs) := drain ⟨s.queryQueue, none⟩
          (s2, Ev.settle q.resultSetId ok :: evs)
  | .clearPending ids =>
      (⟨s.queryQueue.filter (fun q => !(ids.contains q.resultSetId)), s.inFlight⟩,
       (s.queryQueue.filter (fun q => ids.contains q.resultSetId)).map
         (fun q => Ev.rejected q.resultSetId "Query cancelled"))

/-- Run a list of actions, accumulating the state and the event trace. -/
def runAux (s : RunnerState) : List Act → RunnerState × List Ev
  | [] => (s, [])
  | a :: rest =>
      ((runAux (step s a).1 rest).1,
       (step s a).2 ++ (runAux (step s a).1 rest).2)

/-- A fresh runner: empty queue, nothing executing (lines 67-68). -/
def initState : RunnerState := ⟨[], none⟩

/-- Final state after a sequence of actions. -/
def finalState (acts : List Act) : RunnerState := (runAux initState acts).1

/-- Event trace of a sequence of actions. -/
def trace (acts : List Act) : List Ev := (runAux initState acts).2

/-! ### Trace projections -/

/-- Ids of `enqueued` events, in order. -/
def enqIds (tr : List Ev) : List String :=
  tr.filterMap fun e => match e with | .enqueued i => some i | _ => none

/-- Ids of `issue` events (EXECUTE commands sent to the worker), in order. -/
def issueIds (tr : List Ev) : List String :=
  tr.filterMap fun e => match e with | .issue i => some i | _ => none

/-- Ids of `settle` events, in order. -/
def settleIds (tr : List Ev) : List String :=
  tr.filterMap fun e => match e with | .settle i _ => some i | _ => none

/-- Ids of `onStarted` events, in order. -/
def onStartedIds (tr : List Ev) : List String :=
  tr.filterMap fun e => match e with | .onStarted i => some i | _ => none

/-- Ids of `rejected` events (entries cancelled while pending), in order. -/
def rejectedIds (tr : List Ev) : List String :=
  tr.filterMap fun e => match e with | .rejected i _ => some i | _ => none

/-- Ids of the entries still in the queue. -/
def queueIds (s : RunnerState) : List String := s.queryQueue.map (·.resultSetId)

/-- Id of the in-flight entry, if any. -/
def flightId (s : RunnerState) : Option String := s.inFlight.map (·.resultSetId)

/-- Is this event an `onStarted`, `issue` or `settle`? -/
def isOS : Ev → Bool
  | .onStarted _ => true
  | .issue _ => true
  | .settle _ _ => true
  | _ => false

/-- The subtrace of `onStarted`/`issue`/`settle` events. -/
def osIS (tr : List Ev) : List Ev := tr.filter isOS

/-- The canonical shape of a finished execution: for each `(id, ok)` the
three events `onStarted id`, `issue id`, `settle id ok`, in that order. -/
def osTriples (ps : List (String × Bool)) : List Ev :=
  (ps.map fun p => [Ev.onStarted p.1, Ev.issue p.1, Ev.settle p.1 p.2]).flatten

/-- The trailing events of an execution that is still in flight. -/
def osOpen : Option String → List Ev
  | none => []
  | some i => [Ev.onStarted i, Ev.issue i]

/-- Does this event concern `id` through the `onStarted`/`issue`/`settle`/
`rejected` lifecycle? (`enqueued` is excluded.) -/
def aboutOS (id : String) : Ev → Bool
  | .onStarted i => i = id
  | .issue i => i = id
  | .settle i _ => i = id
  | .rejected i _ => i = id
  | .enqueued _ => false

/-! ### Projection lemmas -/

@[simp] theorem enqIds_nil : enqIds [] = [] := rfl
@[simp] theorem issueIds_nil : issueIds [] = [] := rfl
@[simp] theorem settleIds_nil : settleIds [] = [] := rfl
@[simp] theorem onStartedIds_nil : onStartedIds [] = [] := rfl
@[simp] theorem rejectedIds_nil : rejectedIds [] = [] := rfl
@[simp] theorem osIS_nil : osIS [] = [] := rfl

@[simp] theorem enqIds_append (l1 l2 : List Ev) :
    enqIds (l1 ++ l2) = enqIds l1 ++ enqIds l2 := List.filterMap_append ..

@[simp] theorem issueIds_append (l1 l2 : List Ev) :
    issueIds (l1 ++ l2) = issueIds l1 ++ issueIds l2 := List.filterMap_append ..

@[simp] theorem settleIds_append (l1 l2 : List Ev) :
    settleIds (l1 ++ l2) = settleIds l1 ++ settleIds l2 := List.filterMap_append ..

@[simp] theorem onStartedIds_append (l1 l2 : List Ev) :
    onStartedIds (l1 ++ l2) = onStartedIds l1 ++ onStartedIds l2 :=
  List.filterMap_append ..

@[simp] theorem rejectedIds_append (l1 l2 : List Ev) :
    rejectedIds (l1 ++ l2) = rejectedIds l1 ++ rejectedIds l2 :=
  List.filterMap_append ..

@[simp] theorem osIS_append (l1 l2 : List Ev) :
    osIS (l1 ++ l2) = osIS l1 ++ osIS l2 := List.filter_append ..

@[simp] theorem enqIds_cons (e : Ev) (tr : List Ev) :
    enqIds (e :: tr) =
      (match e with | .enqueued i => [i] | _ => []) ++ enqIds tr := by
  cases e <;> simp [enqIds, List.filterMap_cons]

@[simp] theorem issueIds_cons (e : Ev) (tr : List Ev) :
    issueIds (e :: tr) =
      (match e with | .issue i => [i] | _ => []) ++ issueIds tr := by
  cases e <;> simp [issueIds, List.filterMap_cons]

@[simp] theorem settleIds_cons (e : Ev) (tr : List Ev) :
    settleIds (e :: tr) =
      (match e with | .settle i _ => [i] | _ => []) ++ settleIds tr := by
  cases e <;> simp [settleIds, List.filterMap_cons]

@[simp] theorem onStartedIds_cons (e : Ev) (tr : List Ev) :
    onStartedIds (e :: tr) =
      (match e with | .onStarted i => [i] | _ => []) ++ onStartedIds tr := by
  cases e <;> simp [onStartedIds, List.filterMap_cons]

@[simp] theorem rejectedIds_cons (e : Ev) (tr : List Ev) :
    rejectedIds (e :: tr) =
      (match e with | .rejected i _ => [i] | _ => []) ++ rejectedIds tr := by
  cases e <;> simp [rejectedIds, List.filterMap_cons]

@[simp] theorem osIS_cons (e : Ev) (tr : List Ev) :
    osIS (e :: tr) = (if isOS e then [e] else []) ++ osIS tr := by
  by_cases h : isOS e <;> simp [osIS, List.filter_cons, h]

@[simp] theorem osTriples_nil : osTriples [] = [] := rfl

theorem osTriples_concat (ps : List (String × Bool)) (p : String × Bool) :
    osTriples (ps ++ [p]) =
      osTriples ps ++ [Ev.onStarted p.1, Ev.issue p.1, Ev.settle p.1 p.2] := by
  simp [osTriples]

@[simp] theorem isOS_enqueued (i : String) : isOS (Ev.enqueued i) = false := rfl
@[simp] theorem isOS_onStarted (i : String) : isOS (Ev.onStarted i) = true := rfl
@[simp] theorem isOS_issue (i : String) : isOS (Ev.issue i) = true := rfl
@[simp] theorem isOS_settle (i : String) (ok : Bool) : isOS (Ev.settle i ok) = true := rfl
@[simp] theorem isOS_rejected (i m : String) : isOS (Ev.rejected i m) = false := rfl

@[simp] theorem aboutOS_enqueued (id i : String) :
    aboutOS id (Ev.enqueued i) = false := rfl
@[simp] theorem aboutOS_onStarted (id i : String) :
    aboutOS id (Ev.onStarted i) = decide (i = id) := rfl
@[simp] theorem aboutOS_issue (id i : String) :
    aboutOS id (Ev.issue i) = decide (i = id) := rfl
@[simp] theorem aboutOS_settle (id i : String) (ok : Bool) :
    aboutOS id (Ev.settle i ok) = decide (i = id) := rfl
@[simp] theorem aboutOS_rejected (id i m : String) :
    aboutOS id (Ev.rejected i m) = decide (i = id) := rfl

/-- Counting images under `f` splits along a filter of the domain. -/
theorem count_map_filter_split {α : Type} [DecidableEq α]
    (f : α → String) (p : α → Bool) (l : List α) (x : String) :
    ((l.filter p).map f).count x + ((l.filter (fun a => !(p a))).map f).count x
      = (l.map f).count x := by
  induction l with
  | nil => simp
  | cons a l ih =>
      by_cases h : p a <;> simp [h, List.count_cons] <;> omega

/-- Rejection events for ids other than `id` do not show up in the
`aboutOS id` projection. -/
theorem filter_aboutOS_rejMap_of_not_mem (msg : String) {id : String}
    {l : List String} (h : id ∉ l) :
    ((l.map fun i => Ev.rejected i msg).filter (aboutOS id)) = [] := by
  induction l with
  | nil => simp
  | cons a l ih =>
      simp only [List.mem_cons, not_or] at h
      simp [List.filter_cons, Ne.symm h.1, ih h.2]

/-- If `id` occurs exactly once in `l`, the rejection events of `l`
project to the single rejection of `id`. -/
theorem filter_aboutOS_rejMap_of_mem (msg : String) {id : String}
    {l : List String} (h1 : l.count id ≤ 1) (hm : id ∈ l) :
    ((l.map fun i => Ev.rejected i msg).filter (aboutOS id))
      = [Ev.rejected id msg] := by
  induction l with
  | nil => simp at hm
  | cons a l ih =>
      by_cases ha : a = id
      · subst ha
        have hcnt : l.count a = 0 := by
          have := List.count_cons_self a l
          omega
        have hnm : a ∉ l := by
          intro hmem
          have := List.count_pos_iff.mpr hmem
          omega
        simp [List.filter_cons, filter_aboutOS_rejMap_of_not_mem msg hnm]
      · have hm' : id ∈ l := by
          rcases List.mem_cons.mp hm with h | h
          · exact absurd h.symm ha
          · exact h
        have h1' : l.count id ≤ 1 := by
          have := List.count_cons id a l
          simp only [List.count_cons] at h1
          omega
        simp [List.filter_cons, ha, ih h1' hm']

/-- Rejection events are never `onStarted`/`issue`/`settle` events. -/
theorem osIS_rejMap (l : List String) (msg : String) :
    osIS (l.map fun i => Ev.rejected i msg) = [] := by
  induction l with
  | nil => rfl
  | cons a l ih => simp [ih]

/-- If a filter removes nothing of `l`, the complementary filter keeps
all of `l`. -/
theorem filter_not_of_filter_eq_nil {α : Type} {l : List α} {p : α → Bool}
    (h : l.filter p = []) : l.filter (fun a => !(p a)) = l := by
  induction l with
  | nil => rfl
  | cons a l ih =>
      by_cases hp : p a
      · simp [List.filter_cons, hp] at h
      · simp only [List.filter_cons, hp, if_neg] at h
        simp only [List.filter_cons]
        simp only [hp, Bool.not_false, if_pos]
        rw [ih h]

/-! ### The runner invariant

`PerId` characterizes, for each `resultSetId`, the complete lifecycle
subtrace it can have produced, assuming ids are never reused:
nothing yet (still pending or never submitted), started and issued
(in flight), started-issued-settled, or rejected while pending. -/

def PerId (s : RunnerState) (tr : List Ev) : Prop :=
  ∀ id : String,
    (id ∉ enqIds tr → tr.filter (aboutOS id) = []) ∧
    (id ∈ queueIds s → tr.filter (aboutOS id) = [] ∧ flightId s ≠ some id) ∧
    (flightId s = some id →
       tr.filter (aboutOS id) = [Ev.onStarted id, Ev.issue id] ∧
       id ∉ queueIds s) ∧
    (∀ ok, Ev.settle id ok ∈ tr →
       tr.filter (aboutOS id)
         = [Ev.onStarted id, Ev.issue id, Ev.settle id ok] ∧
       id ∉ queueIds s ∧ flightId s ≠ some id) ∧
    (∀ m, Ev.rejected id m ∈ tr →
       tr.filter (aboutOS id) = [Ev.rejected id "Query cancelled"] ∧
       id ∉ queueIds s ∧ flightId s ≠ some id)

/-- The reachable-state invariant of the runner model. -/
structure Inv (s : RunnerState) (tr : List Ev) : Prop where
  /-- When nothing is executing the queue is empty: `executeQuery` and the
  `finally` recursion both drain eagerly. -/
  emptyQ : s.inFlight = none → s.queryQueue = []
  /-- Issued ids followed by still-queued ids form a sublist of the
  enqueued ids (some may have been rejected in between). -/
  fifoSub : (issueIds tr ++ queueIds s).Sublist (enqIds tr)
  /-- Without pending cancellations, issued ids followed by queued ids are
  exactly the enqueued ids: EXECUTE commands go out in FIFO order. -/
  fifoEq : rejectedIds tr = [] → issueIds tr ++ queueIds s = enqIds tr
  /-- Normal form of the started/issued/settled subtrace: a sequence of
  complete `onStarted, issue, settle` triples followed by the events of
  the entry currently in flight.  Hence at most one EXECUTE is
  outstanding at any time. -/
  nf : ∃ ps, osIS tr = osTriples ps ++ osOpen (flightId s)
  /-- Every enqueued occurrence is issued, rejected, or still queued. -/
  conserve : ∀ id, (enqIds tr).count id =
      (issueIds tr).count id + (rejectedIds tr).count id
        + (queueIds s).count id
  /-- Pending cancellation always rejects with the literal message of
  src/pythonRunner.ts line 322. -/
  rejMsg : ∀ id m, Ev.rejected id m ∈ tr → m = "Query cancelled"
  /-- Per-id lifecycle characterization, under unique ids. -/
  perId : (enqIds tr).Nodup → PerId s tr

/-- The initial state satisfies the invariant. -/
theorem inv_init : Inv initState [] := by
  refine ⟨fun _ => rfl, by simp [initState, queueIds], by simp [initState, queueIds],
    ⟨[], by simp [initState, flightId, osOpen]⟩, by simp [initState, queueIds],
    by simp, fun _ id => ?_⟩
  simp [initState, queueIds, flightId]

/-! ### Step computation lemmas -/

theorem step_enqueue_busy (s : RunnerState) (q f : QueuedQuery)
    (h : s.inFlight = some f) :
    step s (.enqueue q)
      = (⟨s.queryQueue ++ [q], some f⟩, [Ev.enqueued q.resultSetId]) := by
  simp [step, drain, h]

theorem step_enqueue_idle (s : RunnerState) (q : QueuedQuery)
    (h : s.inFlight = none) (h2 : s.queryQueue = []) :
    step s (.enqueue q)
      = (⟨[], some q⟩,
         [Ev.enqueued q.resultSetId, Ev.onStarted q.resultSetId,
          Ev.issue q.resultSetId]) := by
  simp [step, drain, h, h2]

theorem step_complete_none (s : RunnerState) (ok : Bool)
    (h : s.inFlight = none) : step s (.complete ok) = (s, []) := by
  simp [step, h]

theorem step_complete_empty (s : RunnerState) (ok : Bool) (f : QueuedQuery)
    (h : s.inFlight = some f) (h2 : s.queryQueue = []) :
    step s (.complete ok) = (⟨[], none⟩, [Ev.settle f.resultSetId ok]) := by
  simp [step, drain, h, h2]

theorem step_complete_cons (s : RunnerState) (ok : Bool) (f h : QueuedQuery)
    (t : List QueuedQuery) (hf : s.inFlight = some f)
    (hq : s.queryQueue = h :: t) :
    step s (.complete ok)
      = (⟨t, some h⟩,
         [Ev.settle f.resultSetId ok, Ev.onStarted h.resultSetId,
          Ev.issue h.resultSetId]) := by
  simp [step, drain, hf, hq]

theorem step_clear (s : RunnerState) (ids : List String) :
    step s (.clearPending ids)
      = (⟨s.queryQueue.filter (fun q => !(ids.contains q.resultSetId)),
          s.inFlight⟩,
         (s.queryQueue.filter (fun q => ids.contains q.resultSetId)).map
           (fun q => Ev.rejected q.resultSetId "Query cancelled")) := rfl

/-! ### Invariant preservation -/

theorem inv_enqueue_busy (s : RunnerState) (tr : List Ev) (q f : QueuedQuery)
    (hf : s.inFlight = some f) (h : Inv s tr) :
    Inv ⟨s.queryQueue ++ [q], some f⟩ (tr ++ [Ev.enqueued q.resultSetId]) := by
  obtain ⟨qsql, x⟩ := q
  have hflight : flightId s = some f.resultSetId := by simp [flightId, hf]
  have hqids : queueIds ⟨s.queryQueue ++ [⟨qsql, x⟩], some f⟩
      = queueIds s ++ [x] := by simp [queueIds]
  have hfl2 : flightId ⟨s.queryQueue ++ [⟨qsql, x⟩], some f⟩
      = some f.resultSetId := by simp [flightId]
  have henq : enqIds (tr ++ [Ev.enqueued x]) = enqIds tr ++ [x] := by simp
  have hiss : issueIds (tr ++ [Ev.enqueued x]) = issueIds tr := by simp
  have hrejeq : rejectedIds (tr ++ [Ev.enqueued x]) = rejectedIds tr := by simp
  constructor
  · intro hc; exact absurd hc (by simp)
  · rw [hiss, henq, hqids, ← List.append_assoc]
    exact List.Sublist.append h.fifoSub (List.Sublist.refl [x])
  · intro hrej
    rw [hrejeq] at hrej
    rw [hiss, henq, hqids, ← List.append_assoc, h.fifoEq hrej]
  · obtain ⟨ps, hps⟩ := h.nf
    refine ⟨ps, ?_⟩
    have : osIS (tr ++ [Ev.enqueued x]) = osIS tr := by simp
    rw [this, hps, hflight, hfl2]
  · intro j
    have hc := h.conserve j
    rw [henq, hiss, hrejeq, hqids, List.count_append, List.count_append]
    omega
  · intro j m hm
    rcases List.mem_append.mp hm with hm | hm
    · exact h.rejMsg j m hm
    · simp at hm
  · intro hnod
    rw [henq] at hnod
    have hxnot : x ∉ enqIds tr := by
      rcases List.nodup_append.mp hnod with ⟨_, _, hdisj⟩
      intro hc; exact hdisj hc (List.mem_singleton.mpr rfl)
    have hnodold : (enqIds tr).Nodup := (List.nodup_append.mp hnod).1
    have hold := h.perId hnodold
    intro j
    obtain ⟨o1, o2, o3, o4, o5⟩ := hold j
    have hfil : (tr ++ [Ev.enqueued x]).filter (aboutOS j)
        = tr.filter (aboutOS j) := by
      simp [List.filter_append]
    refine ⟨?_, ?_, ?_, ?_, ?_⟩
    · intro hni
      rw [henq] at hni
      simp only [List.mem_append, List.mem_singleton, not_or] at hni
      rw [hfil]; exact o1 hni.1
    · intro hqm
      rw [hqids] at hqm
      rcases List.mem_append.mp hqm with hqm | hqm
      · obtain ⟨hf1, hf2⟩ := o2 hqm
        rw [hfil, hfl2]
        exact ⟨hf1, hflight ▸ hf2⟩
      · simp only [List.mem_singleton] at hqm
        cases hqm
        rw [hfil, hfl2]
        constructor
        · exact o1 hxnot
        · intro hc
          obtain ⟨hf1, _⟩ := o3 (hflight.trans hc)
          rw [o1 hxnot] at hf1
          exact List.noConfusion hf1
    · intro hflid
      rw [hfl2] at hflid
      obtain ⟨hf1, hnq⟩ := o3 (hflight.trans hflid)
      have hjenq : j ∈ enqIds tr := by
        by_contra hcn
        rw [o1 hcn] at hf1
        exact List.noConfusion hf1
      refine ⟨by rw [hfil]; exact hf1, ?_⟩
      rw [hqids]
      simp only [List.mem_append, List.mem_singleton, not_or]
      exact ⟨hnq, fun hc => hxnot (hc ▸ hjenq)⟩
    · intro ok hst
      have hst' : Ev.settle j ok ∈ tr := by
        rcases List.mem_append.mp hst with h' | h'
        · exact h'
        · simp at h'
      obtain ⟨hf1, hnq, hnfl⟩ := o4 ok hst'
      have hjenq : j ∈ enqIds tr := by
        by_contra hcn
        rw [o1 hcn] at hf1
        exact List.noConfusion hf1
      refine ⟨by rw [hfil]; exact hf1, ?_, ?_⟩
      · rw [hqids]
        simp only [List.mem_append, List.mem_singleton, not_or]
        exact ⟨hnq, fun hc => hxnot (hc ▸ hjenq)⟩
      · rw [hfl2]; exact hflight ▸ hnfl
    · intro m hrj
      have hrj' : Ev.rejected j m ∈ tr := by
        rcases List.mem_append.mp hrj with h' | h'
        · exact h'
        · simp at h'
      obtain ⟨hf1, hnq, hnfl⟩ := o5 m hrj'
      have hjenq : j ∈ enqIds tr := by
        by_contra hcn
        rw [o1 hcn] at hf1
        exact List.noConfusion hf1
      refine ⟨by rw [hfil]; exact hf1, ?_, ?_⟩
      · rw [hqids]
        simp only [List.mem_append, List.mem_singleton, not_or]
        exact ⟨hnq, fun hc => hxnot (hc ▸ hjenq)⟩
      · rw [hfl2]; exact hflight ▸ hnfl

theorem inv_enqueue_idle (s : RunnerState) (tr : List Ev) (q : QueuedQuery)
    (hf : s.inFlight = none) (h : Inv s tr) :
    Inv ⟨[], some q⟩
      (tr ++ [Ev.enqueued q.resultSetId, Ev.onStarted q.resultSetId,
              Ev.issue q.resultSetId]) := by
  obtain ⟨qsql, x⟩ := q
  have hqe : s.queryQueue = [] := h.emptyQ hf
  have hqids0 : queueIds s = [] := by simp [queueIds, hqe]
  have hflight : flightId s = none := by simp [flightId, hf]
  have henq : enqIds (tr ++ [Ev.enqueued x, Ev.onStarted x, Ev.issue x])
      = enqIds tr ++ [x] := by simp
  have hiss : issueIds (tr ++ [Ev.enqueued x, Ev.onStarted x, Ev.issue x])
      = issueIds tr ++ [x] := by simp
  have hrejeq : rejectedIds (tr ++ [Ev.enqueued x, Ev.onStarted x, Ev.issue x])
      = rejectedIds tr := by simp
  have hqids : queueIds (⟨[], some ⟨qsql, x⟩⟩ : RunnerState) = [] := by
    simp [queueIds]
  have hfl2 : flightId (⟨[], some ⟨qsql, x⟩⟩ : RunnerState) = some x := by
    simp [flightId]
  constructor
  · intro hc; exact absurd hc (by simp)
  · rw [hiss, henq, hqids, List.append_nil]
    have := h.fifoSub
    rw [hqids0, List.append_nil] at this
    exact List.Sublist.append this (List.Sublist.refl [x])
  · intro hrej
    rw [hrejeq] at hrej
    have := h.fifoEq hrej
    rw [hqids0, List.append_nil] at this
    rw [hiss, henq, hqids, List.append_nil, this]
  · obtain ⟨ps, hps⟩ := h.nf
    refine ⟨ps, ?_⟩
    have : osIS (tr ++ [Ev.enqueued x, Ev.onStarted x, Ev.issue x])
        = osIS tr ++ [Ev.onStarted x, Ev.issue x] := by simp
    rw [this, hps, hflight, hfl2]
    simp [osOpen]
  · intro j
    have hc := h.conserve j
    rw [hqids0] at hc
    rw [henq, hiss, hrejeq, hqids, List.count_append, List.count_append]
    simp only [List.count_nil] at hc ⊢
    omega
  · intro j m hm
    rcases List.mem_append.mp hm with hm | hm
    · exact h.rejMsg j m hm
    · simp at hm
  · intro hnod
    rw [henq] at hnod
    have hxnot : x ∉ enqIds tr := by
      rcases List.nodup_append.mp hnod with ⟨_, _, hdisj⟩
      intro hc; exact hdisj hc (List.mem_singleton.mpr rfl)
    have hnodold : (enqIds tr).Nodup := (List.nodup_append.mp hnod).1
    have hold := h.perId hnodold
    intro j
    obtain ⟨o1, o2, o3, o4, o5⟩ := hold j
    have hfileq :
        (tr ++ [Ev.enqueued x, Ev.onStarted x, Ev.issue x]).filter (aboutOS x)
          = tr.filter (aboutOS x) ++ [Ev.onStarted x, Ev.issue x] := by
      simp [List.filter_append, List.filter_cons]
    have hfilne : x ≠ j →
        (tr ++ [Ev.enqueued x, Ev.onStarted x, Ev.issue x]).filter (aboutOS j)
          = tr.filter (aboutOS j) := by
      intro hne
      simp [List.filter_append, List.filter_cons, hne]
    refine ⟨?_, ?_, ?_, ?_, ?_⟩
    · intro hni
      rw [henq] at hni
      simp only [List.mem_append, List.mem_singleton, not_or] at hni
      rw [hfilne (fun hc => hni.2 hc.symm)]
      exact o1 hni.1
    · intro hqm
      rw [hqids] at hqm
      simp at hqm
    · intro hflid
      rw [hfl2] at hflid
      have hxj : x = j := by injection hflid
      cases hxj
      rw [hfileq, o1 hxnot]
      exact ⟨rfl, by simp [hqids]⟩
    · intro ok hst
      have hst' : Ev.settle j ok ∈ tr := by
        rcases List.mem_append.mp hst with h' | h'
        · exact h'
        · simp at h'
      obtain ⟨hf1, _, _⟩ := o4 ok hst'
      have hjenq : j ∈ enqIds tr := by
        by_contra hcn
        rw [o1 hcn] at hf1
        exact List.noConfusion hf1
      have hne : x ≠ j := fun hc => hxnot (hc ▸ hjenq)
      refine ⟨by rw [hfilne hne]; exact hf1, by simp [hqids], ?_⟩
      rw [hfl2]
      intro hc
      exact hne (by injection hc)
    · intro m hrj
      have hrj' : Ev.rejected j m ∈ tr := by
        rcases List.mem_append.mp hrj with h' | h'
        · exact h'
        · simp at h'
      obtain ⟨hf1, _, _⟩ := o5 m hrj'
      have hjenq : j ∈ enqIds tr := by
        by_contra hcn
        rw [o1 hcn] at hf1
        exact List.noConfusion hf1
      have hne : x ≠ j := fun hc => hxnot (hc ▸ hjenq)
      refine ⟨by rw [hfilne hne]; exact hf1, by simp [hqids], ?_⟩
      rw [hfl2]
      intro hc
      exact hne (by injection hc)

theorem inv_complete_empty (s : RunnerState) (tr : List Ev) (ok : Bool)
    (f : QueuedQuery) (hf : s.inFlight = some f) (hq : s.queryQueue = [])
    (h : Inv s tr) :
    Inv ⟨[], none⟩ (tr ++ [Ev.settle f.resultSetId ok]) := by
  obtain ⟨fsql, x⟩ := f
  have hflight : flightId s = some x := by simp [flightId, hf]
  have hqids0 : queueIds s = [] := by simp [queueIds, hq]
  have henq : enqIds (tr ++ [Ev.settle x ok]) = enqIds tr := by simp
  have hiss : issueIds (tr ++ [Ev.settle x ok]) = issueIds tr := by simp
  have hrejeq : rejectedIds (tr ++ [Ev.settle x ok]) = rejectedIds tr := by simp
  have hqids : queueIds (⟨[], none⟩ : RunnerState) = [] := by simp [queueIds]
  have hfl2 : flightId (⟨[], none⟩ : RunnerState) = none := by simp [flightId]
  constructor
  · intro _; rfl
  · rw [hiss, henq, hqids, List.append_nil]
    have := h.fifoSub
    rw [hqids0, List.append_nil] at this
    exact this
  · intro hrej
    rw [hrejeq] at hrej
    have := h.fifoEq hrej
    rw [hqids0, List.append_nil] at this
    rw [hiss, henq, hqids, List.append_nil, this]
  · obtain ⟨ps, hps⟩ := h.nf
    refine ⟨ps ++ [(x, ok)], ?_⟩
    have : osIS (tr ++ [Ev.settle x ok]) = osIS tr ++ [Ev.settle x ok] := by simp
    rw [this, hps, hflight, hfl2, osTriples_concat]
    simp [osOpen]
  · intro j
    have hc := h.conserve j
    rw [hqids0] at hc
    rw [henq, hiss, hrejeq, hqids]
    simp only [List.count_nil] at hc ⊢
    omega
  · intro j m hm
    rcases List.mem_append.mp hm with hm | hm
    · exact h.rejMsg j m hm
    · simp at hm
  · intro hnod
    rw [henq] at hnod
    have hold := h.perId hnod
    have hox := (hold x).2.2.1 hflight
    have hxenq : x ∈ enqIds tr := by
      by_contra hcn
      have := (hold x).1 hcn
      rw [this] at hox
      exact List.noConfusion hox.1
    intro j
    obtain ⟨o1, o2, o3, o4, o5⟩ := hold j
    by_cases hjx : x = j
    · cases hjx
      have hfil : (tr ++ [Ev.settle x ok]).filter (aboutOS x)
          = tr.filter (aboutOS x) ++ [Ev.settle x ok] := by
        simp [List.filter_append, List.filter_cons]
      refine ⟨?_, ?_, ?_, ?_, ?_⟩
      · intro hni; exact absurd hxenq (henq ▸ hni)
      · intro hqm; rw [hqids] at hqm; simp at hqm
      · intro hflid; rw [hfl2] at hflid; exact Option.noConfusion hflid
      · intro ok' hst
        rcases List.mem_append.mp hst with hst' | hst'
        · obtain ⟨hf1, _, _⟩ := o4 ok' hst'
          rw [hox.1] at hf1
          simp at hf1
        · simp only [List.mem_singleton] at hst'
          have hok : ok' = ok := by injection hst'
          cases hok
          refine ⟨?_, by simp [hqids], by rw [hfl2]; simp⟩
          rw [hfil, hox.1]
          rfl
      · intro m hrj
        have hrj' : Ev.rejected x m ∈ tr := by
          rcases List.mem_append.mp hrj with h' | h'
          · exact h'
          · simp at h'
        obtain ⟨hf1, _, _⟩ := o5 m hrj'
        rw [hox.1] at hf1
        simp at hf1
    · have hfil : (tr ++ [Ev.settle x ok]).filter (aboutOS j)
          = tr.filter (aboutOS j) := by
        simp [List.filter_append, List.filter_cons, hjx]
      refine ⟨?_, ?_, ?_, ?_, ?_⟩
      · intro hni
        rw [henq] at hni
        rw [hfil]; exact o1 hni
      · intro hqm; rw [hqids] at hqm; simp at hqm
      · intro hflid; rw [hfl2] at hflid; exact Option.noConfusion hflid
      · intro ok' hst
        have hst' : Ev.settle j ok' ∈ tr := by
          rcases List.mem_append.mp hst with h' | h'
          · exact h'
          · simp only [List.mem_singleton] at h'
            exact absurd (by injection h' with h1 _; exact h1.symm) hjx
        obtain ⟨hf1, _, _⟩ := o4 ok' hst'
        exact ⟨by rw [hfil]; exact hf1, by simp [hqids], by rw [hfl2]; simp⟩
      · intro m hrj
        have hrj' : Ev.rejected j m ∈ tr := by
          rcases List.mem_append.mp hrj with h' | h'
          · exact h'
          · simp at h'
        obtain ⟨hf1, _, _⟩ := o5 m hrj'
        exact ⟨by rw [hfil]; exact hf1, by simp [hqids], by rw [hfl2]; simp⟩

theorem inv_complete_cons (s : RunnerState) (tr : List Ev) (ok : Bool)
    (f hd : QueuedQuery) (t : List QueuedQuery)
    (hf : s.inFlight = some f) (hq : s.queryQueue = hd :: t) (h : Inv s tr) :
    Inv ⟨t, some hd⟩
      (tr ++ [Ev.settle f.resultSetId ok, Ev.onStarted hd.resultSetId,
              Ev.issue hd.resultSetId]) := by
  obtain ⟨fsql, x⟩ := f
  obtain ⟨hsql, y⟩ := hd
  have hflight : flightId s = some x := by simp [flightId, hf]
  have hqidsS : queueIds s = y :: t.map (·.resultSetId) := by
    simp [queueIds, hq]
  have henq : enqIds (tr ++ [Ev.settle x ok, Ev.onStarted y, Ev.issue y])
      = enqIds tr := by simp
  have hiss : issueIds (tr ++ [Ev.settle x ok, Ev.onStarted y, Ev.issue y])
      = issueIds tr ++ [y] := by simp
  have hrejeq :
      rejectedIds (tr ++ [Ev.settle x ok, Ev.onStarted y, Ev.issue y])
        = rejectedIds tr := by simp
  have hqids : queueIds (⟨t, some ⟨hsql, y⟩⟩ : RunnerState)
      = t.map (·.resultSetId) := by simp [queueIds]
  have hfl2 : flightId (⟨t, some ⟨hsql, y⟩⟩ : RunnerState) = some y := by
    simp [flightId]
  constructor
  · intro hc; exact absurd hc (by simp)
  · rw [hiss, henq, hqids, List.append_assoc, List.singleton_append]
    rw [← hqidsS]
    exact h.fifoSub
  · intro hrej
    rw [hrejeq] at hrej
    rw [hiss, henq, hqids, List.append_assoc, List.singleton_append, ← hqidsS]
    exact h.fifoEq hrej
  · obtain ⟨ps, hps⟩ := h.nf
    refine ⟨ps ++ [(x, ok)], ?_⟩
    have : osIS (tr ++ [Ev.settle x ok, Ev.onStarted y, Ev.issue y])
        = osIS tr ++ [Ev.settle x ok, Ev.onStarted y, Ev.issue y] := by simp
    rw [this, hps, hflight, hfl2, osTriples_concat]
    simp [osOpen]
  · intro j
    have hc := h.conserve j
    rw [hqidsS] at hc
    rw [henq, hiss, hrejeq, hqids, List.count_append]
    rcases eq_or_ne y j with hyj | hyj
    · cases hyj
      simp only [List.count_cons_self, List.count_singleton, List.count_nil]
        at hc ⊢
      omega
    · rw [List.count_cons_of_ne (Ne.symm hyj)] at hc
      have h0 : List.count j [y] = 0 := by
        simp [List.count_singleton', Ne.symm hyj]
      rw [h0]
      omega
  · intro j m hm
    rcases List.mem_append.mp hm with hm | hm
    · exact h.rejMsg j m hm
    · simp at hm
  · intro hnod
    rw [henq] at hnod
    have hold := h.perId hnod
    have hox := (hold x).2.2.1 hflight
    have hoy := (hold y).2.1 (by rw [hqidsS]; exact List.mem_cons_self y _)
    have hxy : x ≠ y := by
      intro hc
      exact hoy.2 (by rw [← hc, hflight])
    have hxenq : x ∈ enqIds tr := by
      by_contra hcn
      have := (hold x).1 hcn
      rw [this] at hox
      exact List.noConfusion hox.1
    have hyenq : y ∈ enqIds tr := by
      have hc := h.conserve y
      have h1 : 0 < (queueIds s).count y := by
        rw [hqidsS]; simp
      have h2 : 0 < (enqIds tr).count y := by omega
      exact List.count_pos_iff.mp h2
    have hytnot : y ∉ t.map (·.resultSetId) := by
      intro hc
      have hcnt1 : (enqIds tr).count y ≤ 1 :=
        List.nodup_iff_count_le_one.mp hnod y
      have hcnt2 : 0 < (t.map (·.resultSetId)).count y :=
        List.count_pos_iff.mpr hc
      have hc3 := h.conserve y
      rw [hqidsS, List.count_cons_self] at hc3
      omega
    intro j
    obtain ⟨o1, o2, o3, o4, o5⟩ := hold j
    by_cases hjx : x = j
    · cases hjx
      have hfil :
          (tr ++ [Ev.settle x ok, Ev.onStarted y, Ev.issue y]).filter
            (aboutOS x) = tr.filter (aboutOS x) ++ [Ev.settle x ok] := by
        simp [List.filter_append, List.filter_cons, Ne.symm hxy]
      refine ⟨?_, ?_, ?_, ?_, ?_⟩
      · intro hni; exact absurd hxenq (henq ▸ hni)
      · intro hqm
        rw [hqids] at hqm
        exact absurd (by rw [hqidsS]; exact List.mem_cons_of_mem _ hqm) hox.2
      · intro hflid
        rw [hfl2] at hflid
        exact absurd (by injection hflid) (Ne.symm hxy)
      · intro ok' hst
        rcases List.mem_append.mp hst with hst' | hst'
        · obtain ⟨hf1, _, _⟩ := o4 ok' hst'
          rw [hox.1] at hf1
          simp at hf1
        · simp at hst'
          cases hst'
          refine ⟨?_, ?_, ?_⟩
          · rw [hfil, hox.1]; rfl
          · rw [hqids]
            intro hc
            exact hox.2 (by rw [hqidsS]; exact List.mem_cons_of_mem _ hc)
          · rw [hfl2]
            intro hc
            exact (Ne.symm hxy) (by injection hc)
      · intro m hrj
        have hrj' : Ev.rejected x m ∈ tr := by
          rcases List.mem_append.mp hrj with h' | h'
          · exact h'
          · simp at h'
        obtain ⟨hf1, _, _⟩ := o5 m hrj'
        rw [hox.1] at hf1
        simp at hf1
    · by_cases hjy : y = j
      · cases hjy
        have hfil :
            (tr ++ [Ev.settle x ok, Ev.onStarted y, Ev.issue y]).filter
              (aboutOS y)
              = tr.filter (aboutOS y) ++ [Ev.onStarted y, Ev.issue y] := by
          simp [List.filter_append, List.filter_cons, hjx]
        refine ⟨?_, ?_, ?_, ?_, ?_⟩
        · intro hni; exact absurd hyenq (henq ▸ hni)
        · intro hqm
          rw [hqids] at hqm
          exact absurd hqm hytnot
        · intro _
          refine ⟨?_, by rw [hqids]; exact hytnot⟩
          rw [hfil, hoy.1]
          rfl
        · intro ok' hst
          have hst' : Ev.settle y ok' ∈ tr := by
            rcases List.mem_append.mp hst with h' | h'
            · exact h'
            · simp [Ne.symm hjx] at h'
          have hmem := List.mem_filter.mpr
            (⟨hst', by simp⟩ : Ev.settle y ok' ∈ tr ∧ aboutOS y (Ev.settle y ok') = true)
          rw [hoy.1] at hmem
          exact absurd hmem (List.not_mem_nil _)
        · intro m hrj
          have hrj' : Ev.rejected y m ∈ tr := by
            rcases List.mem_append.mp hrj with h' | h'
            · exact h'
            · simp at h'
          have hmem := List.mem_filter.mpr
            (⟨hrj', by simp⟩ : Ev.rejected y m ∈ tr ∧ aboutOS y (Ev.rejected y m) = true)
          rw [hoy.1] at hmem
          exact absurd hmem (List.not_mem_nil _)
      · have hfil :
            (tr ++ [Ev.settle x ok, Ev.onStarted y, Ev.issue y]).filter
              (aboutOS j) = tr.filter (aboutOS j) := by
          simp [List.filter_append, List.filter_cons, hjx, hjy]
        refine ⟨?_, ?_, ?_, ?_, ?_⟩
        · intro hni
          rw [henq] at hni
          rw [hfil]; exact o1 hni
        · intro hqm
          rw [hqids] at hqm
          have hqm' : j ∈ queueIds s := by
            rw [hqidsS]; exact List.mem_cons_of_mem _ hqm
          obtain ⟨hf1, _⟩ := o2 hqm'
          refine ⟨by rw [hfil]; exact hf1, ?_⟩
          rw [hfl2]
          intro hc
          exact hjy (by injection hc)
        · intro hflid
          rw [hfl2] at hflid
          exact absurd (by injection hflid) hjy
        · intro ok' hst
          have hst' : Ev.settle j ok' ∈ tr := by
            rcases List.mem_append.mp hst with h' | h'
            · exact h'
            · simp [Ne.symm hjx] at h'
          obtain ⟨hf1, hnq, _⟩ := o4 ok' hst'
          refine ⟨by rw [hfil]; exact hf1, ?_, ?_⟩
          · rw [hqids]
            intro hc
            exact hnq (by rw [hqidsS]; exact List.mem_cons_of_mem _ hc)
          · rw [hfl2]
            intro hc
            exact hjy (by injection hc)
        · intro m hrj
          have hrj' : Ev.rejected j m ∈ tr := by
            rcases List.mem_append.mp hrj with h' | h'
            · exact h'
            · simp at h'
          obtain ⟨hf1, hnq, _⟩ := o5 m hrj'
          refine ⟨by rw [hfil]; exact hf1, ?_, ?_⟩
          · rw [hqids]
            intro hc
            exact hnq (by rw [hqidsS]; exact List.mem_cons_of_mem _ hc)
          · rw [hfl2]
            intro hc
            exact hjy (by injection hc)

theorem enqIds_rejMap (l : List String) (msg : String) :
    enqIds (l.map fun i => Ev.rejected i msg) = [] := by
  induction l with
  | nil => rfl
  | cons a l ih => simp [ih]

theorem issueIds_rejMap (l : List String) (msg : String) :
    issueIds (l.map fun i => Ev.rejected i msg) = [] := by
  induction l with
  | nil => rfl
  | cons a l ih => simp [ih]

theorem rejectedIds_rejMap (l : List String) (msg : String) :
    rejectedIds (l.map fun i => Ev.rejected i msg) = l := by
  induction l with
  | nil => rfl
  | cons a l ih => simp [ih]

theorem inv_clear (s : RunnerState) (tr : List Ev) (ids : List String)
    (h : Inv s tr) :
    Inv ⟨s.queryQueue.filter (fun q => !(ids.contains q.resultSetId)),
         s.inFlight⟩
      (tr ++ (s.queryQueue.filter (fun q => ids.contains q.resultSetId)).map
        (fun q => Ev.rejected q.resultSetId "Query cancelled")) := by
  have hmapmap :
      (s.queryQueue.filter (fun q => ids.contains q.resultSetId)).map
          (fun q => Ev.rejected q.resultSetId "Query cancelled")
        = ((s.queryQueue.filter
              (fun q => ids.contains q.resultSetId)).map (·.resultSetId)).map
            (fun i => Ev.rejected i "Query cancelled") := by
    rw [List.map_map]
    rfl
  have hkeptids : queueIds ⟨s.queryQueue.filter
        (fun q => !(ids.contains q.resultSetId)), s.inFlight⟩
      = (s.queryQueue.filter
          (fun q => !(ids.contains q.resultSetId))).map (·.resultSetId) := by
    simp [queueIds]
  have hfleq : flightId ⟨s.queryQueue.filter
        (fun q => !(ids.contains q.resultSetId)), s.inFlight⟩
      = flightId s := by simp [flightId]
  have henq : ∀ l : List Ev, enqIds (tr ++ l) = enqIds tr ++ enqIds l := by
    intro l; simp
  have hsplit := fun j => count_map_filter_split (·.resultSetId)
      (fun q => ids.contains q.resultSetId) s.queryQueue j
  constructor
  · intro hc
    simp only at hc
    rw [h.emptyQ hc]
    rfl
  · rw [hmapmap]
    simp only [enqIds_append, issueIds_append, enqIds_rejMap, issueIds_rejMap,
      List.append_nil, hkeptids]
    have hsub : ((s.queryQueue.filter
          (fun q => !(ids.contains q.resultSetId))).map (·.resultSetId)).Sublist
        (queueIds s) :=
      List.Sublist.map _ (List.filter_sublist _)
    exact (List.Sublist.append_left hsub _).trans h.fifoSub
  · intro hrej
    rw [hmapmap] at hrej ⊢
    simp only [rejectedIds_append, rejectedIds_rejMap] at hrej
    rcases List.append_eq_nil.mp hrej with ⟨hrej1, hrej2⟩
    have hrem : s.queryQueue.filter (fun q => ids.contains q.resultSetId)
        = [] := by
      exact List.map_eq_nil_iff.mp hrej2
    have hkeep := filter_not_of_filter_eq_nil hrem
    simp only [enqIds_append, issueIds_append, enqIds_rejMap, issueIds_rejMap,
      List.append_nil, hkeptids, hkeep]
    exact h.fifoEq hrej1
  · obtain ⟨ps, hps⟩ := h.nf
    refine ⟨ps, ?_⟩
    rw [hmapmap]
    simp only [osIS_append, osIS_rejMap, List.append_nil]
    rw [hps, hfleq]
  · intro j
    have hc := h.conserve j
    have hs := hsplit j
    rw [hmapmap]
    simp only [enqIds_append, issueIds_append, rejectedIds_append,
      enqIds_rejMap, issueIds_rejMap, rejectedIds_rejMap, List.append_nil,
      List.count_append, hkeptids]
    simp only [queueIds] at hc
    omega
  · intro j m hm
    rcases List.mem_append.mp hm with hm | hm
    · exact h.rejMsg j m hm
    · rcases List.mem_map.mp hm with ⟨q, _, hqe⟩
      injection hqe with _ h2
      exact h2.symm
  · intro hnod
    rw [hmapmap] at hnod ⊢
    simp only [enqIds_append, enqIds_rejMap, List.append_nil] at hnod
    have hold := h.perId hnod
    have hqnodup : (queueIds s).Nodup := by
      refine List.nodup_iff_count_le_one.mpr fun a => ?_
      have hc := h.conserve a
      have := List.nodup_iff_count_le_one.mp hnod a
      omega
    intro j
    obtain ⟨o1, o2, o3, o4, o5⟩ := hold j
    have hremIff : (j ∈ (s.queryQueue.filter
          (fun q => ids.contains q.resultSetId)).map (·.resultSetId))
        ↔ j ∈ queueIds s ∧ ids.contains j = true := by
      simp only [List.mem_map, List.mem_filter, queueIds]
      constructor
      · rintro ⟨q, ⟨hq1, hq2⟩, hq3⟩
        exact ⟨⟨q, hq1, hq3⟩, hq3 ▸ hq2⟩
      · rintro ⟨⟨q, hq1, hq3⟩, hq2⟩
        exact ⟨q, ⟨hq1, hq3.symm ▸ hq2⟩, hq3⟩
    have hkeptIff : (j ∈ (s.queryQueue.filter
          (fun q => !(ids.contains q.resultSetId))).map (·.resultSetId))
        ↔ j ∈ queueIds s ∧ ¬(ids.contains j = true) := by
      simp only [List.mem_map, List.mem_filter, queueIds, Bool.not_eq_true',
        Bool.not_eq_true]
      constructor
      · rintro ⟨q, ⟨hq1, hq2⟩, hq3⟩
        exact ⟨⟨q, hq1, hq3⟩, hq3 ▸ hq2⟩
      · rintro ⟨⟨q, hq1, hq3⟩, hq2⟩
        exact ⟨q, ⟨hq1, hq3.symm ▸ hq2⟩, hq3⟩
    have hsettle_notin : ∀ ok, Ev.settle j ok ∈
        ((s.queryQueue.filter
            (fun q => ids.contains q.resultSetId)).map (·.resultSetId)).map
          (fun i => Ev.rejected i "Query cancelled") → False := by
      intro ok hmem
      rcases List.mem_map.mp hmem with ⟨i, _, hie⟩
      exact Ev.noConfusion hie
    by_cases hjrem : j ∈ (s.queryQueue.filter
        (fun q => ids.contains q.resultSetId)).map (·.resultSetId)
    · obtain ⟨hqj, hcont⟩ := hremIff.mp hjrem
      obtain ⟨hf1, hf2⟩ := o2 hqj
      have hremcnt : ((s.queryQueue.filter
            (fun q => ids.contains q.resultSetId)).map (·.resultSetId)).count j
          ≤ 1 := by
        have h1 := hsplit j
        have h2 := List.nodup_iff_count_le_one.mp hqnodup j
        simp only [queueIds] at h2
        omega
      have hfilrej := filter_aboutOS_rejMap_of_mem "Query cancelled"
        hremcnt hjrem
      have hfil : (tr ++ ((s.queryQueue.filter
            (fun q => ids.contains q.resultSetId)).map (·.resultSetId)).map
              (fun i => Ev.rejected i "Query cancelled")).filter (aboutOS j)
          = [Ev.rejected j "Query cancelled"] := by
        rw [List.filter_append, hf1, hfilrej]
        rfl
      have hjenq : j ∈ enqIds tr := by
        have hcnt := h.conserve j
        have h1 : 0 < (queueIds s).count j := List.count_pos_iff.mpr hqj
        have h2 : 0 < (enqIds tr).count j := by omega
        exact List.count_pos_iff.mp h2
      refine ⟨?_, ?_, ?_, ?_, ?_⟩
      · intro hni
        rw [henq, enqIds_rejMap, List.append_nil] at hni
        exact absurd hjenq hni
      · intro hqm
        rw [hkeptids] at hqm
        obtain ⟨_, hnc⟩ := hkeptIff.mp hqm
        exact absurd hcont hnc
      · intro hflid
        rw [hfleq] at hflid
        exact absurd hflid hf2
      · intro ok hst
        rcases List.mem_append.mp hst with hst' | hst'
        · obtain ⟨hfo, _, _⟩ := o4 ok hst'
          rw [hf1] at hfo
          exact List.noConfusion hfo
        · exact absurd hst' (fun hc => hsettle_notin ok hc)
      · intro m _
        refine ⟨hfil, ?_, ?_⟩
        · rw [hkeptids]
          intro hc
          exact (hkeptIff.mp hc).2 hcont
        · rw [hfleq]; exact hf2
    · have hfilrej := filter_aboutOS_rejMap_of_not_mem "Query cancelled"
        hjrem
      have hfil : (tr ++ ((s.queryQueue.filter
            (fun q => ids.contains q.resultSetId)).map (·.resultSetId)).map
              (fun i => Ev.rejected i "Query cancelled")).filter (aboutOS j)
          = tr.filter (aboutOS j) := by
        rw [List.filter_append, hfilrej, List.append_nil]
      have hkeptsub : ∀ a, a ∈ (s.queryQueue.filter
            (fun q => !(ids.contains q.resultSetId))).map (·.resultSetId)
          → a ∈ queueIds s := by
        intro a ha
        rcases List.mem_map.mp ha with ⟨q, hq1, hq2⟩
        exact hq2 ▸ List.mem_map_of_mem _ (List.mem_of_mem_filter hq1)
      refine ⟨?_, ?_, ?_, ?_, ?_⟩
      · intro hni
        rw [henq, enqIds_rejMap, List.append_nil] at hni
        rw [hfil]
        exact o1 hni
      · intro hqm
        rw [hkeptids] at hqm
        obtain ⟨hf1, hf2⟩ := o2 (hkeptsub j hqm)
        rw [hfil, hfleq]
        exact ⟨hf1, hf2⟩
      · intro hflid
        rw [hfleq] at hflid
        obtain ⟨hf1, hnq⟩ := o3 hflid
        rw [hfil, hkeptids]
        exact ⟨hf1, fun hc => hnq (hkeptsub j hc)⟩
      · intro ok hst
        have hst' : Ev.settle j ok ∈ tr := by
          rcases List.mem_append.mp hst with h' | h'
          · exact h'
          · exact absurd h' (fun hc => hsettle_notin ok hc)
        obtain ⟨hf1, hnq, hfl⟩ := o4 ok hst'
        rw [hfil, hkeptids, hfleq]
        exact ⟨hf1, fun hc => hnq (hkeptsub j hc), hfl⟩
      · intro m hrj
        have hrj' : Ev.rejected j m ∈ tr := by
          rcases List.mem_append.mp hrj with h' | h'
          · exact h'
          · rcases List.mem_map.mp h' with ⟨i, hi1, hi2⟩
            injection hi2 with h1 _
            exact absurd (h1 ▸ hi1) hjrem
        obtain ⟨hf1, hnq, hfl⟩ := o5 m hrj'
        rw [hfil, hkeptids, hfleq]
        exact ⟨hf1, fun hc => hnq (hkeptsub j hc), hfl⟩

/-- One atomic action preserves the invariant. -/
theorem inv_step (s : RunnerState) (tr : List Ev) (a : Act) (h : Inv s tr) :
    Inv (step s a).1 (tr ++ (step s a).2) := by
  match a with
  | .enqueue q =>
      match hf : s.inFlight with
      | some f =>
          rw [step_enqueue_busy s q f hf]
          exact inv_enqueue_busy s tr q f hf h
      | none =>
          rw [step_enqueue_idle s q hf (h.emptyQ hf)]
          exact inv_enqueue_idle s tr q hf h
  | .complete ok =>
      match hf : s.inFlight with
      | none =>
          rw [step_complete_none s ok hf]
          simpa using h
      | some f =>
          match hq : s.queryQueue with
          | [] =>
              rw [step_complete_empty s ok f hf hq]
              exact inv_complete_empty s tr ok f hf hq h
          | hd :: t =>
              rw [step_complete_cons s ok f hd t hf hq]
              exact inv_complete_cons s tr ok f hd t hf hq h
  | .clearPending ids =>
      rw [step_clear s ids]
      exact inv_clear s tr ids h

/-- Running any action sequence preserves the invariant. -/
theorem inv_runAux (l : List Act) : ∀ (s : RunnerState) (tr : List Ev),
    Inv s tr → Inv (runAux s l).1 (tr ++ (runAux s l).2) := by
  induction l with
  | nil => intro s tr h; simpa [runAux] using h
  | cons a l ih =>
      intro s tr h
      have h2 := ih (step s a).1 (tr ++ (step s a).2) (inv_step s tr a h)
      simpa [runAux, List.append_assoc] using h2

/-- Every reachable state and trace of the runner satisfy the invariant. -/
theorem inv_trace (acts : List Act) : Inv (finalState acts) (trace acts) := by
  have := inv_runAux acts initState [] inv_init
  simpa [finalState, trace] using this

/-- Trace decomposition across action-list concatenation. -/
theorem runAux_append (s : RunnerState) (l1 l2 : List Act) :
    runAux s (l1 ++ l2)
      = ((runAux (runAux s l1).1 l2).1,
         (runAux s l1).2 ++ (runAux (runAux s l1).1 l2).2) := by
  induction l1 generalizing s with
  | nil => simp [runAux]
  | cons a l ih => simp [runAux, ih, List.append_assoc]

/-! ### Projections of the normal form -/

theorem issueIds_osIS (tr : List Ev) : issueIds (osIS tr) = issueIds tr := by
  induction tr with
  | nil => rfl
  | cons e tr ih => cases e <;> simp [ih]

theorem settleIds_osIS (tr : List Ev) : settleIds (osIS tr) = settleIds tr := by
  induction tr with
  | nil => rfl
  | cons e tr ih => cases e <;> simp [ih]

theorem onStartedIds_osIS (tr : List Ev) :
    onStartedIds (osIS tr) = onStartedIds tr := by
  induction tr with
  | nil => rfl
  | cons e tr ih => cases e <;> simp [ih]

theorem osTriples_cons (p : String × Bool) (ps : List (String × Bool)) :
    osTriples (p :: ps)
      = Ev.onStarted p.1 :: Ev.issue p.1 :: Ev.settle p.1 p.2
          :: osTriples ps := by
  simp [osTriples]

theorem issueIds_osTriples (ps : List (String × Bool)) :
    issueIds (osTriples ps) = ps.map Prod.fst := by
  induction ps with
  | nil => rfl
  | cons p ps ih => rw [osTriples_cons]; simp [ih]

theorem settleIds_osTriples (ps : List (String × Bool)) :
    settleIds (osTriples ps) = ps.map Prod.fst := by
  induction ps with
  | nil => rfl
  | cons p ps ih => rw [osTriples_cons]; simp [ih]

theorem onStartedIds_osTriples (ps : List (String × Bool)) :
    onStartedIds (osTriples ps) = ps.map Prod.fst := by
  induction ps with
  | nil => rfl
  | cons p ps ih => rw [osTriples_cons]; simp [ih]

theorem issueIds_osOpen (fl : Option String) :
    issueIds (osOpen fl) = fl.toList := by
  cases fl <;> rfl

theorem settleIds_osOpen (fl : Option String) :
    settleIds (osOpen fl) = [] := by
  cases fl <;> rfl

theorem onStartedIds_osOpen (fl : Option String) :
    onStartedIds (osOpen fl) = fl.toList := by
  cases fl <;> rfl

/-- The `onStarted` and `issue` events always carry the same ids in the same
order: the two are emitted together at dequeue time. -/
theorem onStartedIds_eq_issueIds (s : RunnerState) (tr : List Ev)
    (h : Inv s tr) : onStartedIds tr = issueIds tr := by
  obtain ⟨ps, hps⟩ := h.nf
  have h1 : onStartedIds tr = ps.map Prod.fst ++ (flightId s).toList := by
    rw [← onStartedIds_osIS, hps]
    simp [onStartedIds_osTriples, onStartedIds_osOpen]
  have h2 : issueIds tr = ps.map Prod.fst ++ (flightId s).toList := by
    rw [← issueIds_osIS, hps]
    simp [issueIds_osTriples, issueIds_osOpen]
  rw [h1, h2]

/-! ### Traces without pending cancellation -/

/-- Does the action list contain a `clearPendingQueries` call? -/
def hasClear : List Act → Bool
  | [] => false
  | .clearPending _ :: _ => true
  | _ :: rest => hasClear rest

theorem rejectedIds_step_of_not_clear (s : RunnerState) (a : Act)
    (h : ∀ ids, a ≠ .clearPending ids) :
    rejectedIds (step s a).2 = [] := by
  match a with
  | .enqueue q =>
      match hf : s.inFlight with
      | some f => rw [step_enqueue_busy s q f hf]; rfl
      | none =>
          rcases hq : s.queryQueue ++ [q] with _ | ⟨hd, t⟩
          · exact absurd hq (by simp)
          · simp only [step, drain, hf, hq]
            rfl
  | .complete ok =>
      match hf : s.inFlight with
      | none => rw [step_complete_none s ok hf]; rfl
      | some f =>
          match hq : s.queryQueue with
          | [] => rw [step_complete_empty s ok f hf hq]; rfl
          | hd :: t => rw [step_complete_cons s ok f hd t hf hq]; rfl
  | .clearPending ids => exact absurd rfl (h ids)

theorem rejectedIds_runAux_of_noClear (l : List Act) :
    ∀ s : RunnerState, hasClear l = false →
      rejectedIds (runAux s l).2 = [] := by
  induction l with
  | nil => intro s _; rfl
  | cons a l ih =>
      intro s h
      have ha : ∀ ids, a ≠ .clearPending ids := by
        intro ids hc
        rw [hc] at h
        simp [hasClear] at h
      have hl : hasClear l = false := by
        match a with
        | .enqueue q => exact h
        | .complete ok => exact h
        | .clearPending ids => exact absurd rfl (ha ids)
      simp only [runAux, rejectedIds_append,
        rejectedIds_step_of_not_clear s a ha, ih (step s a).1 hl,
        List.append_nil]

/-! ## Claim theorems for the query queue -/

/-- C1: for every sequence of `executeQuery`/enqueue calls on one session
(without pending cancellation), the EXECUTE commands are issued to the
worker in exactly the submission (FIFO) order — the issued ids are a
prefix of the enqueued ids — and the `onStarted`/`issue`/`settle`
subtrace is a sequence of completed triples followed by at most one open
execution, so the (n+1)-th EXECUTE is never issued before the n-th has
settled: the settled ids are a prefix of the issued ids, and at most one
EXECUTE is outstanding at any time. -/
theorem executeQuery_fifo_single_flight (acts : List Act)
    (hnc : hasClear acts = false) :
    (∃ rest, issueIds (trace acts) ++ rest = enqIds (trace acts)) ∧
    (∃ ps, osIS (trace acts)
        = osTriples ps ++ osOpen (flightId (finalState acts))) ∧
    (∃ rest2, settleIds (trace acts) ++ rest2 = issueIds (trace acts)) ∧
    (issueIds (trace acts)).length ≤ (settleIds (trace acts)).length + 1 := by
  have hinv := inv_trace acts
  have hrej : rejectedIds (trace acts) = [] :=
    rejectedIds_runAux_of_noClear acts initState hnc
  obtain ⟨ps, hps⟩ := hinv.nf
  have hIss : issueIds (trace acts)
      = ps.map Prod.fst ++ (flightId (finalState acts)).toList := by
    rw [← issueIds_osIS, hps]
    simp [issueIds_osTriples, issueIds_osOpen]
  have hSet : settleIds (trace acts) = ps.map Prod.fst := by
    rw [← settleIds_osIS, hps]
    simp [settleIds_osTriples, settleIds_osOpen]
  refine ⟨⟨queueIds (finalState acts), hinv.fifoEq hrej⟩, ⟨ps, hps⟩,
    ⟨(flightId (finalState acts)).toList, by rw [hSet, hIss]⟩, ?_⟩
  rw [hIss, hSet, List.length_append]
  have : (flightId (finalState acts)).toList.length ≤ 1 := by
    cases flightId (finalState acts) <;> simp
  omega

/-- The action sequence used to witness C1: two queries, both completing. -/
def c1Acts : List Act :=
  [Act.enqueue ⟨"SELECT 1", "rs-0"⟩, Act.enqueue ⟨"SELECT 2", "rs-1"⟩,
   Act.complete true, Act.complete true]

/-- Witness for C1: the FIFO and single-flight properties hold on a
concrete two-query run. -/
theorem executeQuery_fifo_single_flight_witness :
    hasClear c1Acts = false ∧
    ((∃ rest, issueIds (trace c1Acts) ++ rest = enqIds (trace c1Acts)) ∧
     (∃ ps, osIS (trace c1Acts)
         = osTriples ps ++ osOpen (flightId (finalState c1Acts))) ∧
     (∃ rest2, settleIds (trace c1Acts) ++ rest2 = issueIds (trace c1Acts)) ∧
     (issueIds (trace c1Acts)).length ≤ (settleIds (trace c1Acts)).length + 1) :=
  ⟨by decide, executeQuery_fifo_single_flight c1Acts (by decide)⟩

/-- C2: assuming ids are unique, for every query that is not cancelled
while pending, the `onStarted` callback runs at most once, and whenever
its promise settles the whole lifecycle subtrace for that id is exactly
`onStarted`, then `issue`, then `settle` — so `onStarted` ran exactly
once, strictly before the settlement; a query cancelled while pending
(`rejected`) never gets `onStarted` and is never issued. -/
theorem onStarted_once_before_settle (acts : List Act)
    (hnod : (enqIds (trace acts)).Nodup) (id : String) :
    (onStartedIds (trace acts)).count id ≤ 1 ∧
    (∀ ok, Ev.settle id ok ∈ trace acts →
       (trace acts).filter (aboutOS id)
         = [Ev.onStarted id, Ev.issue id, Ev.settle id ok]) ∧
    (∀ m, Ev.rejected id m ∈ trace acts →
       Ev.onStarted id ∉ trace acts ∧ Ev.issue id ∉ trace acts) := by
  have hinv := inv_trace acts
  obtain ⟨o1, o2, o3, o4, o5⟩ := hinv.perId hnod id
  refine ⟨?_, ?_, ?_⟩
  · rw [onStartedIds_eq_issueIds _ _ hinv]
    have h1 : (issueIds (trace acts)).Sublist (enqIds (trace acts)) :=
      (List.sublist_append_left _ _).trans hinv.fifoSub
    calc (issueIds (trace acts)).count id
        ≤ (enqIds (trace acts)).count id := h1.count_le id
      _ ≤ 1 := List.nodup_iff_count_le_one.mp hnod id
  · intro ok hst
    exact (o4 ok hst).1
  · intro m hrj
    have hfil := (o5 m hrj).1
    constructor
    · intro hc
      have hm := List.mem_filter.mpr
        (⟨hc, by simp⟩ : Ev.onStarted id ∈ trace acts
          ∧ aboutOS id (Ev.onStarted id) = true)
      rw [hfil] at hm
      simp at hm
    · intro hc
      have hm := List.mem_filter.mpr
        (⟨hc, by simp⟩ : Ev.issue id ∈ trace acts
          ∧ aboutOS id (Ev.issue id) = true)
      rw [hfil] at hm
      simp at hm

/-- The action sequence used to witness C2: query B is cancelled while
pending behind A; A then completes. -/
def c2Acts : List Act :=
  [Act.enqueue ⟨"SELECT a", "A"⟩, Act.enqueue ⟨"SELECT b", "B"⟩,
   Act.clearPending ["B"], Act.complete true]

/-- Witness for C2 on a concrete run, at the completed query A. -/
theorem onStarted_once_before_settle_witness :
    (enqIds (trace c2Acts)).Nodup ∧
    ((onStartedIds (trace c2Acts)).count "A" ≤ 1 ∧
     (∀ ok, Ev.settle "A" ok ∈ trace c2Acts →
        (trace c2Acts).filter (aboutOS "A")
          = [Ev.onStarted "A", Ev.issue "A", Ev.settle "A" ok]) ∧
     (∀ m, Ev.rejected "A" m ∈ trace c2Acts →
        Ev.onStarted "A" ∉ trace c2Acts ∧ Ev.issue "A" ∉ trace c2Acts)) :=
  ⟨by decide, onStarted_once_before_settle c2Acts (by decide) "A"⟩

/-- C7: `clearPendingQueries` removes exactly the still-queued entries
whose handle matches, rejecting each with the QueryCancelled message; the
non-matching entries stay queued in their original relative order and
the in-flight entry is untouched (first conjunct, an exact trace
decomposition).  No EXECUTE is ever issued for a cancelled entry and it
never settles (second conjunct), and the entry in flight at the moment
of the call is never rejected by pending cancellation, so its outcome is
unaffected (third conjunct). -/
theorem clearPendingQueries_isolated (pre post : List Act) (ids : List String)
    (hnod : (enqIds (trace (pre ++ Act.clearPending ids :: post))).Nodup) :
    trace (pre ++ Act.clearPending ids :: post)
      = trace pre
        ++ ((finalState pre).queryQueue.filter
             (fun q => ids.contains q.resultSetId)).map
             (fun q => Ev.rejected q.resultSetId "Query cancelled")
        ++ (runAux ⟨(finalState pre).queryQueue.filter
             (fun q => !(ids.contains q.resultSetId)),
             (finalState pre).inFlight⟩ post).2 ∧
    (∀ j m, Ev.rejected j m ∈ trace (pre ++ Act.clearPending ids :: post) →
       m = "Query cancelled" ∧
       Ev.issue j ∉ trace (pre ++ Act.clearPending ids :: post) ∧
       ∀ ok, Ev.settle j ok ∉ trace (pre ++ Act.clearPending ids :: post)) ∧
    (∀ f, (finalState pre).inFlight = some f →
       ∀ m, Ev.rejected f.resultSetId m
         ∉ trace (pre ++ Act.clearPending ids :: post)) := by
  have h1 : trace (pre ++ Act.clearPending ids :: post)
      = trace pre
        ++ ((finalState pre).queryQueue.filter
             (fun q => ids.contains q.resultSetId)).map
             (fun q => Ev.rejected q.resultSetId "Query cancelled")
        ++ (runAux ⟨(finalState pre).queryQueue.filter
             (fun q => !(ids.contains q.resultSetId)),
             (finalState pre).inFlight⟩ post).2 := by
    show (runAux initState (pre ++ Act.clearPending ids :: post)).2 = _
    rw [runAux_append, List.append_assoc]
    rfl
  have hinv := inv_trace (pre ++ Act.clearPending ids :: post)
  have hper := hinv.perId hnod
  refine ⟨h1, ?_, ?_⟩
  · intro j m hrj
    obtain ⟨hfil, _, _⟩ := (hper j).2.2.2.2 m hrj
    refine ⟨hinv.rejMsg j m hrj, ?_, ?_⟩
    · intro hc
      have hm := List.mem_filter.mpr
        (⟨hc, by simp⟩ : Ev.issue j ∈ trace (pre ++ Act.clearPending ids :: post)
          ∧ aboutOS j (Ev.issue j) = true)
      rw [hfil] at hm
      simp at hm
    · intro ok hc
      have hm := List.mem_filter.mpr
        (⟨hc, by simp⟩ :
          Ev.settle j ok ∈ trace (pre ++ Act.clearPending ids :: post)
          ∧ aboutOS j (Ev.settle j ok) = true)
      rw [hfil] at hm
      simp at hm
  · intro f hf m hrj
    have hpre : (enqIds (trace pre)).Nodup := by
      rw [h1] at hnod
      simp only [enqIds_append] at hnod
      exact List.Nodup.sublist
        ((List.sublist_append_left _ _).trans (List.sublist_append_left _ _))
        hnod
    have hinvpre := inv_trace pre
    obtain ⟨hfilpre, _⟩ := ((hinvpre.perId hpre) f.resultSetId).2.2.1
      (by simp [flightId, hf])
    have hissue : Ev.issue f.resultSetId ∈ trace pre := by
      have hm : Ev.issue f.resultSetId
          ∈ (trace pre).filter (aboutOS f.resultSetId) := by
        rw [hfilpre]
        simp
      exact List.mem_of_mem_filter hm
    have hissue2 : Ev.issue f.resultSetId
        ∈ trace (pre ++ Act.clearPending ids :: post) := by
      rw [h1]
      exact List.mem_append.mpr (Or.inl (List.mem_append.mpr (Or.inl hissue)))
    obtain ⟨hfil, _, _⟩ := (hper f.resultSetId).2.2.2.2 m hrj
    have hm := List.mem_filter.mpr
      (⟨hissue2, by simp⟩ :
        Ev.issue f.resultSetId ∈ trace (pre ++ Act.clearPending ids :: post)
        ∧ aboutOS f.resultSetId (Ev.issue f.resultSetId) = true)
    rw [hfil] at hm
    simp at hm

/-- The scenario used to witness C7: A in flight, B and C pending; B and
C are cancelled, then A completes. -/
def c7Pre : List Act :=
  [Act.enqueue ⟨"SELECT a", "A"⟩, Act.enqueue ⟨"SELECT b", "B"⟩,
   Act.enqueue ⟨"SELECT c", "C"⟩]

/-- Witness for C7 on the concrete scenario. -/
theorem clearPendingQueries_isolated_witness :
    (enqIds (trace (c7Pre ++ Act.clearPending ["B", "C"]
        :: [Act.complete true]))).Nodup ∧
    (trace (c7Pre ++ Act.clearPending ["B", "C"] :: [Act.complete true])
      = trace c7Pre
        ++ ((finalState c7Pre).queryQueue.filter
             (fun q => ["B", "C"].contains q.resultSetId)).map
             (fun q => Ev.rejected q.resultSetId "Query cancelled")
        ++ (runAux ⟨(finalState c7Pre).queryQueue.filter
             (fun q => !(["B", "C"].contains q.resultSetId)),
             (finalState c7Pre).inFlight⟩ [Act.complete true]).2 ∧
    (∀ j m, Ev.rejected j m ∈ trace (c7Pre ++ Act.clearPending ["B", "C"]
        :: [Act.complete true]) →
       m = "Query cancelled" ∧
       Ev.issue j ∉ trace (c7Pre ++ Act.clearPending ["B", "C"]
         :: [Act.complete true]) ∧
       ∀ ok, Ev.settle j ok ∉ trace (c7Pre ++ Act.clearPending ["B", "C"]
         :: [Act.complete true])) ∧
    (∀ f, (finalState c7Pre).inFlight = some f →
       ∀ m, Ev.rejected f.resultSetId m
         ∉ trace (c7Pre ++ Act.clearPending ["B", "C"]
             :: [Act.complete true]))) :=
  ⟨by decide,
   clearPendingQueries_isolated c7Pre [Act.complete true] ["B", "C"]
     (by decide)⟩

/-! ## The SqlExecutor run loop (src/sqlExecutor.ts lines 142-396)

`SqlExecutor.executeQuery` sends RUN_STARTED, then RESULT_SET_PENDING for
every statement up front, then executes the statements in order with a
`batchFailed` flag: once a statement resolves with `success:false` or its
promise rejects, `batchFailed` is set and every later statement only
receives RESULT_SET_CANCELLED (the `continue` at line 210) — no
`session.executeQuery` call is made for it.  RUN_COMPLETE is sent after
the loop (line 368).  We model the path where the run is not cancelled by
the user (`cancelledRuns` does not contain the run id and the progress
notification is never dismissed, so the two `break`s at lines 184-197 do
not fire). -/

/-- How awaiting `session.executeQuery` for one statement turns out. -/
inductive StmtOutcome where
  /-- Resolved with `success: true` (schema, rows and completion are sent;
  the DDL/DML no-result branch sends the same event kinds with a
  synthetic message row). -/
  | success
  /-- Resolved with `success: false` (lines 254-274). -/
  | failure
  /-- The promise rejected (the catch block at lines 348-364). -/
  | exn
deriving DecidableEq, Repr

/-- Webview messages sent by the run loop, by statement index. -/
inductive RunEv where
  | runStarted
  | resultSetPending (i : Nat)
  /-- Means `session.executeQuery` was called for statement `i`: the statement
  was submitted for execution. -/
  | execSubmitted (i : Nat)
  | resultSetError (i : Nat)
  | resultSetSchema (i : Nat)
  | resultSetRows (i : Nat)
  | resultSetComplete (i : Nat)
  | resultSetCancelled (i : Nat)
  | runComplete
deriving DecidableEq, Repr

/-- The statement loop (lines 181-365): `i` is the index of the first
statement of `outcomes`, `batchFailed` the failure flag. -/
def runLoop : List StmtOutcome → Nat → Bool → List RunEv
  | [], _, _ => []
  | o :: rest, i, batchFailed =>
      if batchFailed then
        RunEv.resultSetCancelled i :: runLoop rest (i + 1) true
      else
        match o with
        | .success =>
            RunEv.execSubmitted i :: RunEv.resultSetSchema i
              :: RunEv.resultSetRows i :: RunEv.resultSetComplete i
              :: runLoop rest (i + 1) false
        | .failure =>
            RunEv.execSubmitted i :: RunEv.resultSetError i
              :: runLoop rest (i + 1) true
        | .exn =>
            RunEv.execSubmitted i :: RunEv.resultSetError i
              :: runLoop rest (i + 1) true

/-- One whole run: RUN_STARTED, all pending tabs up front, the statement
loop, RUN_COMPLETE. -/
def executeRun (outcomes : List StmtOutcome) : List RunEv :=
  RunEv.runStarted
    :: (List.range outcomes.length).map RunEv.resultSetPending
    ++ runLoop outcomes 0 false
    ++ [RunEv.runComplete]

/-- After the batch has failed no statement is ever submitted. -/
theorem runLoop_failed_no_exec (l : List StmtOutcome) :
    ∀ (i j : Nat), RunEv.execSubmitted j ∉ runLoop l i true := by
  induction l with
  | nil => intro i j h; exact absurd h (List.not_mem_nil _)
  | cons o rest ih =>
      intro i j h
      simp only [runLoop, if_pos, List.mem_cons] at h
      rcases h with h | h
      · exact RunEv.noConfusion h
      · exact ih (i + 1) j h

/-- After the batch has failed every remaining statement gets a
RESULT_SET_CANCELLED message. -/
theorem runLoop_failed_cancelled (l : List StmtOutcome) :
    ∀ (i j : Nat), i ≤ j → j < i + l.length →
      RunEv.resultSetCancelled j ∈ runLoop l i true := by
  induction l with
  | nil => intro i j h1 h2; simp at h2; omega
  | cons o rest ih =>
      intro i j h1 h2
      simp only [runLoop, if_pos, List.mem_cons]
      rcases eq_or_ne i j with hij | hij
      · exact Or.inl (by rw [hij])
      · refine Or.inr (ih (i + 1) j (by omega) ?_)
        simp only [List.length_cons] at h2
        omega

/-- Core loop property: if statement `i` is the first failing one, no
later statement is submitted and each gets RESULT_SET_CANCELLED. -/
theorem runLoop_first_failure (l : List StmtOutcome) :
    ∀ (i : Nat) (o : StmtOutcome), l[i]? = some o → o ≠ .success →
      (∀ k, k < i → l[k]? = some .success) →
      ∀ j, i < j → j < l.length → ∀ n,
        RunEv.execSubmitted (n + j) ∉ runLoop l n false ∧
        RunEv.resultSetCancelled (n + j) ∈ runLoop l n false := by
  induction l with
  | nil => intro i o hi _ _ _ _ _ _; simp at hi
  | cons a rest ih =>
      intro i o hi hfail hpre j hij hjlen n
      match i with
      | 0 =>
          have ha : a = o := by simpa using hi
          obtain ⟨j', rfl⟩ : ∃ j', j = j' + 1 := ⟨j - 1, by omega⟩
          have hloop : runLoop (a :: rest) n false
              = RunEv.execSubmitted n :: RunEv.resultSetError n
                  :: runLoop rest (n + 1) true := by
            cases o with
            | success => exact absurd rfl hfail
            | failure => rw [ha]; rfl
            | exn => rw [ha]; rfl
          rw [hloop]
          constructor
          · intro hmem
            simp only [List.mem_cons] at hmem
            rcases hmem with h | h | h
            · have h2 : n + (j' + 1) = n := by injection h
              omega
            · exact RunEv.noConfusion h
            · exact runLoop_failed_no_exec rest (n + 1) (n + (j' + 1)) h
          · refine List.mem_cons_of_mem _ (List.mem_cons_of_mem _ ?_)
            refine runLoop_failed_cancelled rest (n + 1) (n + (j' + 1))
              (by omega) ?_
            simp only [List.length_cons] at hjlen
            omega
      | i' + 1 =>
          have ha : a = .success := by
            have := hpre 0 (by omega)
            simpa using this
          have hloop : runLoop (a :: rest) n false
              = RunEv.execSubmitted n :: RunEv.resultSetSchema n
                  :: RunEv.resultSetRows n :: RunEv.resultSetComplete n
                  :: runLoop rest (n + 1) false := by
            rw [ha]; rfl
          obtain ⟨j', rfl⟩ : ∃ j', j = j' + 1 := ⟨j - 1, by omega⟩
          have hrest := ih i' o (by simpa using hi) hfail
            (fun k hk => by
              have := hpre (k + 1) (by omega)
              simpa using this)
            j' (by omega) (by simp only [List.length_cons] at hjlen; omega)
            (n + 1)
          have harith : n + 1 + j' = n + (j' + 1) := by omega
          rw [harith] at hrest
          rw [hloop]
          constructor
          · intro hmem
            simp only [List.mem_cons] at hmem
            rcases hmem with h | h | h | h | h
            · have h2 : n + (j' + 1) = n := by injection h
              omega
            · exact RunEv.noConfusion h
            · exact RunEv.noConfusion h
            · exact RunEv.noConfusion h
            · exact hrest.1 h
          · exact List.mem_cons_of_mem _ (List.mem_cons_of_mem _
              (List.mem_cons_of_mem _ (List.mem_cons_of_mem _ hrest.2)))

/-- C3: in a run of statements, once statement `i` fails (its EXECUTE
resolves with `success:false` or the call rejects), no later statement is
ever submitted for execution (`session.executeQuery` is never called for
it); instead RESULT_SET_CANCELLED is emitted for each later statement,
and the run still ends with RUN_COMPLETE. -/
theorem batch_abort_on_failure (outcomes : List StmtOutcome) (i : Nat)
    (o : StmtOutcome) (hi : outcomes[i]? = some o)
    (hfail : o ≠ StmtOutcome.success)
    (hpre : ∀ k, k < i → outcomes[k]? = some StmtOutcome.success) :
    (∀ j, i < j → j < outcomes.length →
       RunEv.execSubmitted j ∉ executeRun outcomes ∧
       RunEv.resultSetCancelled j ∈ executeRun outcomes) ∧
    (executeRun outcomes).getLast? = some RunEv.runComplete := by
  constructor
  · intro j hij hjlen
    have hcore := runLoop_first_failure outcomes i o hi hfail hpre j hij hjlen 0
    rw [Nat.zero_add] at hcore
    constructor
    · intro hmem
      simp only [executeRun, List.mem_cons, List.mem_append, List.mem_map,
        List.mem_singleton] at hmem
      rcases hmem with ((h | ⟨k, _, hk⟩) | h) | h | h
      · exact RunEv.noConfusion h
      · exact RunEv.noConfusion hk
      · exact hcore.1 h
      · exact RunEv.noConfusion h
      · exact absurd h (List.not_mem_nil _)
    · simp only [executeRun, List.mem_cons, List.mem_append]
      exact Or.inl (Or.inr hcore.2)
  · have hsplit : executeRun outcomes
        = ((RunEv.runStarted
            :: (List.range outcomes.length).map RunEv.resultSetPending)
            ++ runLoop outcomes 0 false) ++ [RunEv.runComplete] := rfl
    rw [hsplit]
    exact List.getLast?_concat _

/-- The outcome list used to witness C3: S1 succeeds, S2 fails, S3 would
succeed but must never run. -/
def c3Outcomes : List StmtOutcome :=
  [StmtOutcome.success, StmtOutcome.failure, StmtOutcome.success]

/-- Witness for C3 at the concrete run [S1 succeeds, S2 fails, S3]. -/
theorem batch_abort_on_failure_witness :
    c3Outcomes[1]? = some StmtOutcome.failure ∧
    StmtOutcome.failure ≠ StmtOutcome.success ∧
    (∀ k, k < 1 → c3Outcomes[k]? = some StmtOutcome.success) ∧
    ((∀ j, 1 < j → j < c3Outcomes.length →
        RunEv.execSubmitted j ∉ executeRun c3Outcomes ∧
        RunEv.resultSetCancelled j ∈ executeRun c3Outcomes) ∧
     (executeRun c3Outcomes).getLast? = some RunEv.runComplete) :=
  ⟨by decide, by decide, by decide,
   batch_abort_on_failure c3Outcomes 1 StmtOutcome.failure (by decide)
     (by decide) (by decide)⟩

/-! ## Transport inbound framing (`handleStdout`, src/pythonRunner.ts
lines 128-148)

`handleStdout` appends the incoming bytes to `outputBuffer`, then loops:
while the buffer contains a newline, it takes the content up to the
newline, trims it, drops it if empty, and otherwise attempts JSON
decoding — a decode failure is logged and the line is dropped.  The JSON
parser plus `handleMessage` dispatch is abstracted as a partial decode
function `dec`. -/

/-- JS `String.trim`: strip whitespace from both ends. -/
def trimChars (l : List Char) : List Char :=
  ((l.dropWhile Char.isWhitespace).reverse.dropWhile Char.isWhitespace).reverse

/-- Content up to the first newline, and the rest of the buffer after it
(`indexOf("\n")` plus the two `substring` calls, lines 133-135). -/
def breakLine : List Char → Option (List Char × List Char)
  | [] => none
  | c :: cs =>
      if c = '\n' then some ([], cs)
      else (breakLine cs).map (fun p => (c :: p.1, p.2))

theorem breakLine_rest_length :
    ∀ (cs line rest : List Char), breakLine cs = some (line, rest) →
      rest.length < cs.length := by
  intro cs
  induction cs with
  | nil => intro line rest h; exact Option.noConfusion h
  | cons c cs ih =>
      intro line rest h
      by_cases hc : c = '\n'
      · rw [breakLine, if_pos hc] at h
        injection h with h2
        injection h2 with _ h3
        rw [← h3]
        simp
      · simp only [breakLine, if_neg hc] at h
        match h2 : breakLine cs with
        | none => rw [h2] at h; exact Option.noConfusion h
        | some (l', r') =>
            rw [h2] at h
            simp only [Option.map_some'] at h
            injection h with h3
            injection h3 with _ h4
            have := ih l' r' h2
            rw [← h4]
            simp only [List.length_cons]
            omega

/-- The `while` loop of `handleStdout`: repeatedly take the next
completed line, trim, skip if empty, decode or drop; what remains
without a newline stays in the buffer.  Returns the final buffer and the
delivered messages in order. -/
def handleStdoutLoop {Msg : Type} (dec : List Char → Option Msg)
    (buffer : List Char) : List Char × List Msg :=
  match h : breakLine buffer with
  | none => (buffer, [])
  | some (line, rest) =>
      let r := handleStdoutLoop dec rest
      let t := trimChars line
      if t = [] then r
      else
        match dec t with
        | some m => (r.1, m :: r.2)
        | none => r
termination_by buffer.length
decreasing_by exact breakLine_rest_length buffer line rest h

/-- The transport state seen by `handleStdout`: the partial-line buffer
and the messages delivered to `handleMessage` so far. -/
structure TransportBuffer (Msg : Type) where
  outputBuffer : List Char
  delivered : List Msg

/-- Model of `handleStdout(data)`: append the data to the buffer and run the
framing loop. -/
def handleStdout {Msg : Type} (dec : List Char → Option Msg)
    (st : TransportBuffer Msg) (data : List Char) : TransportBuffer Msg :=
  let r := handleStdoutLoop dec (st.outputBuffer ++ data)
  ⟨r.1, st.delivered ++ r.2⟩

/-- Declarative splitting of a byte sequence at newlines: the completed
lines (in order) and the trailing content after the last newline. -/
def splitNl : List Char → List (List Char) × List Char
  | [] => ([], [])
  | c :: cs =>
      if c = '\n' then
        (([] : List Char) :: (splitNl cs).1, (splitNl cs).2)
      else
        match splitNl cs with
        | ([], rem) => ([], c :: rem)
        | (l :: ls, rem) => ((c :: l) :: ls, rem)

/-- Declarative treatment of a single completed line: trim, skip if
empty, else decode. -/
def decodeTrimmedLine {Msg : Type} (dec : List Char → Option Msg)
    (l : List Char) : Option Msg :=
  if trimChars l = [] then none else dec (trimChars l)

theorem splitNl_of_breakLine_none (cs : List Char)
    (h : breakLine cs = none) : splitNl cs = ([], cs) := by
  induction cs with
  | nil => rfl
  | cons c cs ih =>
      by_cases hc : c = '\n'
      · simp [breakLine, hc] at h
      · simp only [breakLine, if_neg hc, Option.map_eq_none'] at h
        have := ih h
        simp only [splitNl, if_neg hc, this]

theorem splitNl_of_breakLine_some :
    ∀ (cs line rest : List Char), breakLine cs = some (line, rest) →
      splitNl cs = (line :: (splitNl rest).1, (splitNl rest).2) := by
  intro cs
  induction cs with
  | nil => intro line rest h; exact Option.noConfusion h
  | cons c cs ih =>
      intro line rest h
      by_cases hc : c = '\n'
      · rw [breakLine, if_pos hc] at h
        injection h with h2
        injection h2 with h3 h4
        simp only [splitNl, if_pos hc, ← h3, ← h4]
      · simp only [breakLine, if_neg hc] at h
        match h2 : breakLine cs with
        | none => rw [h2] at h; exact Option.noConfusion h
        | some (l', r') =>
            rw [h2] at h
            simp only [Option.map_some'] at h
            injection h with h3
            injection h3 with h4 h5
            have hrec := ih l' r' h2
            simp only [splitNl, if_neg hc, hrec, ← h4, ← h5]

/-- The framing loop computes exactly: split at newlines, trim each
completed line, skip empty lines, decode the rest dropping failures, and
keep the remainder in the buffer. -/
theorem handleStdoutLoop_eq {Msg : Type} (dec : List Char → Option Msg)
    (buffer : List Char) :
    handleStdoutLoop dec buffer
      = ((splitNl buffer).2,
         (splitNl buffer).1.filterMap (decodeTrimmedLine dec)) := by
  have H : ∀ (n : Nat) (buf : List Char), buf.length ≤ n →
      handleStdoutLoop dec buf
        = ((splitNl buf).2,
           (splitNl buf).1.filterMap (decodeTrimmedLine dec)) := by
    intro n
    induction n with
    | zero =>
        intro buf hlen
        have hbuf : buf = [] := List.length_eq_zero.mp (Nat.le_zero.mp hlen)
        rw [hbuf, handleStdoutLoop]
        rfl
    | succ n ih =>
        intro buf hlen
        match h : breakLine buf with
        | none =>
            rw [handleStdoutLoop, h, splitNl_of_breakLine_none buf h]
            rfl
        | some (line, rest) =>
            have hrest : rest.length ≤ n := by
              have := breakLine_rest_length buf line rest h
              omega
            rw [handleStdoutLoop, h, splitNl_of_breakLine_some buf line rest h]
            simp only [ih rest hrest, List.filterMap_cons]
            by_cases ht : trimChars line = []
            · simp [decodeTrimmedLine, ht]
            · match hdec : dec (trimChars line) with
              | some m => simp [decodeTrimmedLine, ht, hdec]
              | none => simp [decodeTrimmedLine, ht, hdec]
  exact H buffer.length buffer (Nat.le_refl _)

/-- C9: for every inbound byte sequence fed to the stdout handler, the
buffer (previous remainder plus new data) is split at newlines; each
completed line is trimmed, empty lines are skipped, and a line that
fails JSON decoding is dropped without affecting the transport — the
delivered messages are exactly the successful decodes of the non-empty
trimmed completed lines, in order, so every valid JSON line before or
after a malformed line is still decoded and delivered; the content after
the last newline stays in the buffer. -/
theorem handleStdout_malformed_line_tolerance {Msg : Type}
    (dec : List Char → Option Msg) (st : TransportBuffer Msg)
    (data : List Char) :
    (handleStdout dec st data).delivered
      = st.delivered
        ++ (splitNl (st.outputBuffer ++ data)).1.filterMap
             (decodeTrimmedLine dec) ∧
    (handleStdout dec st data).outputBuffer
      = (splitNl (st.outputBuffer ++ data)).2 := by
  rw [handleStdout]
  simp [handleStdoutLoop_eq]

/-! ## Statement parser (src/statementParser.ts)

`splitStatements` walks the text once with `inString`/`stringChar`/
`inComment` state, cutting at semicolons outside strings and comments;
`getSqlToExecute` picks the statement(s) to run from a selection or
cursor position. -/

/-- One parsed statement: the trimmed text and its [start, end] offsets.
The source field `end` is renamed `endPos` (reserved word). -/
structure RawStatement where
  statement : List Char
  start : Nat
  endPos : Nat
deriving DecidableEq, Repr

/-- The mutable state of the `splitStatements` loop (lines 476-482). -/
structure SplitState where
  statements : List RawStatement
  current : List Char
  start : Nat
  inString : Bool
  stringChar : Char
  inComment : Bool

/-- The character loop of `splitStatements` (lines 484-537).  `prev` is
`text[i-1]` (used by the escape check), `i` the current index; the next
character is peeked from the remaining input. -/
def splitLoop : List Char → Option Char → Nat → SplitState → SplitState
  | [], _, _, st => st
  | c :: rest, prev, i, st =>
      if ¬st.inString ∧ c = '-' ∧ rest.head? = some '-' then
        -- comment start (lines 489-493)
        splitLoop rest (some c) (i + 1)
          { st with inComment := true, current := st.current ++ [c] }
      else if st.inComment then
        -- inside a comment until end of line (lines 495-501)
        splitLoop rest (some c) (i + 1)
          { st with current := st.current ++ [c],
                    inComment := if c = '\n' then false else st.inComment }
      else if (c = '"' ∨ c = '\'') ∧ ¬st.inString then
        -- string open (lines 504-509)
        splitLoop rest (some c) (i + 1)
          { st with inString := true, stringChar := c,
                    current := st.current ++ [c] }
      else if st.inString ∧ c = st.stringChar then
        -- string close, unless escaped (lines 511-518)
        splitLoop rest (some c) (i + 1)
          { st with inString := if 0 < i ∧ prev ≠ some '\\' then false
                                else st.inString,
                    current := st.current ++ [c] }
      else if c = ';' ∧ ¬st.inString ∧ ¬st.inComment then
        -- statement boundary (lines 521-534)
        let trimmed := trimChars (st.current ++ [c])
        splitLoop rest (some c) (i + 1)
          { statements :=
              if trimmed ≠ [] then
                st.statements ++ [⟨trimmed, st.start, i + 1⟩]
              else st.statements,
            current := [], start := i + 1,
            inString := st.inString, stringChar := st.stringChar,
            inComment := st.inComment }
      else
        splitLoop rest (some c) (i + 1) { st with current := st.current ++ [c] }

/-- Model of `splitStatements` (lines 473-550).  The initial `stringChar` of the
source is the empty string; it is only ever read after being set, so any
placeholder character is faithful. -/
def splitStatements (text : List Char) : List RawStatement :=
  let st := splitLoop text none 0 ⟨[], [], 0, false, ' ', false⟩
  let trimmed := trimChars st.current
  if trimmed ≠ [] then st.statements ++ [⟨trimmed, st.start, text.length⟩]
  else st.statements

/-- The record `{sql, statementIndex}` as returned to the executor. -/
structure StatementInfo where
  sql : List Char
  statementIndex : Nat
deriving DecidableEq, Repr

/-- An editor selection; the source field `end` is renamed `endPos`. -/
structure SelectionRange where
  start : Nat
  endPos : Nat
deriving DecidableEq, Repr

/-- The `for` loop of lines 583-593: first statement whose `[start, end]`
range contains the cursor, with its index. -/
def findContaining (cursorPos : Nat) :
    List RawStatement → Nat → Option (RawStatement × Nat)
  | [], _ => none
  | s :: rest, i =>
      if cursorPos ≥ s.start ∧ cursorPos ≤ s.endPos then some (s, i)
      else findContaining cursorPos rest (i + 1)

/-- The no-selection path of `getSqlToExecute` (lines 574-602): split the
whole text, fail when nothing parses, return the statement containing the
cursor, or the last statement when the cursor is past all of them. -/
def cursorPath (text : List Char) (cursorPos : Nat) :
    Except String (List StatementInfo) :=
  let stmts := splitStatements text
  match stmts.getLast? with
  | none => Except.error "No SQL statements found"
  | some lastStmt =>
      match findContaining cursorPos stmts 0 with
      | some (s, i) => Except.ok [⟨s.statement, i⟩]
      | none => Except.ok [⟨lastStmt.statement, stmts.length - 1⟩]

/-- Model of `getSqlToExecute` (lines 555-603).  A non-empty selection is split on
its own; an empty or missing selection falls back to the cursor
position. -/
def getSqlToExecute (text : List Char) (selection : Option SelectionRange) :
    Except String (List StatementInfo) :=
  match selection with
  | some sel =>
      if sel.start ≠ sel.endPos then
        let selectedText :=
          trimChars ((text.drop sel.start).take (sel.endPos - sel.start))
        if selectedText = [] then Except.error "Selected text is empty"
        else
          Except.ok ((splitStatements selectedText).enum.map
            (fun p => ⟨p.2.statement, p.1⟩))
      else cursorPath text sel.start
  | none => cursorPath text 0

theorem findContaining_none (cursorPos : Nat) :
    ∀ (l : List RawStatement) (i : Nat), (∀ s ∈ l, s.endPos < cursorPos) →
      findContaining cursorPos l i = none := by
  intro l
  induction l with
  | nil => intro i _; rfl
  | cons s rest ih =>
      intro i h
      have hs := h s (List.mem_cons_self s rest)
      rw [findContaining, if_neg, ih (i + 1) (fun t ht => h t (List.mem_cons_of_mem s ht))]
      intro hc
      omega

/-- C10: for every document text that splits into at least one statement,
calling `getSqlToExecute` with an empty selection whose cursor offset
lies past the end of every statement returns a single-element list
containing the last statement, with `statementIndex` equal to the
statement count minus one. -/
theorem getSqlToExecute_cursor_past_end (text : List Char) (cursor : Nat)
    (hne : splitStatements text ≠ [])
    (hpast : ∀ s ∈ splitStatements text, s.endPos < cursor) :
    getSqlToExecute text (some ⟨cursor, cursor⟩)
      = Except.ok [⟨((splitStatements text).getLast hne).statement,
                   (splitStatements text).length - 1⟩] := by
  have hsel : getSqlToExecute text (some ⟨cursor, cursor⟩)
      = cursorPath text cursor := by
    rw [getSqlToExecute]
    simp
  rw [hsel, cursorPath]
  have hlast : (splitStatements text).getLast?
      = some ((splitStatements text).getLast hne) :=
    List.getLast?_eq_getLast _ hne
  rw [hlast, findContaining_none cursor (splitStatements text) 0 hpast]

/-- The text used to witness C10. -/
def c10Text : List Char := "SELECT 1; SELECT 2".data

/-- Witness for C10: cursor offset 100 is past both statements of the
two-statement document; the call returns the last statement with
index 1. -/
theorem getSqlToExecute_cursor_past_end_witness :
    (splitStatements c10Text ≠ [] ∧
     ∀ s ∈ splitStatements c10Text, s.endPos < 100) ∧
    getSqlToExecute c10Text (some ⟨100, 100⟩)
      = Except.ok [⟨"SELECT 2".data, 1⟩] := by
  refine ⟨⟨by decide, by decide⟩, ?_⟩
  rw [getSqlToExecute_cursor_past_end c10Text 100 (by decide) (by decide)]
  rfl

/-! ## Transport lifecycle and process exit
(src/pythonRunner.ts lines 79-126, 190-239, 348-362) -/

/-- Status of a promise in the model. -/
inductive PromiseStatus where
  | pending
  | resolved
  | rejectedWith (msg : String)
deriving DecidableEq, Repr

/-- The listener and readiness state of one `PythonRunner` transport:
the keys of the `messageHandlers` map, the `isReady` flag, whether the
READY message has resolved `readyPromise`, the promise returned by
`start(dsn)`, and the promise of the outstanding `sendCommand`. -/
structure Transport where
  messageHandlers : List String
  isReady : Bool
  readyResolved : Bool
  startStatus : PromiseStatus
  callStatus : PromiseStatus
deriving DecidableEq, Repr

/-- Expected response type for a command (the switch at lines 198-215). -/
def responseTypeFor (cmd : String) : String :=
  if cmd = "CONNECT" then "CONNECT_RESULT"
  else if cmd = "RECONNECT" then "RECONNECT_RESULT"
  else if cmd = "EXECUTE" then "EXECUTE_RESULT"
  else if cmd = "CLOSE" then "CLOSE_RESULT"
  else "ERROR"

/-- Model of `sendCommand` (lines 190-239): register the one-shot handler for the
expected response type plus the one-shot ERROR handler, and hand back a
pending promise. -/
def sendCommand (cmd : String) (t : Transport) : Transport :=
  { t with messageHandlers := [responseTypeFor cmd, "ERROR"],
           callStatus := PromiseStatus.pending }

/-- The `exit` handler installed by `start` (lines 98-101): it logs the
exit code and flips `isReady` — nothing else.  No pending handler is
removed, no pending promise is settled. -/
def onProcessExit (t : Transport) : Transport :=
  { t with isReady := false }

/-- The `error` handler installed by `start` (lines 104-107): a process
spawn failure rejects the promise returned by `start`. -/
def onProcessError (msg : String) (t : Transport) : Transport :=
  { t with startStatus := PromiseStatus.rejectedWith msg }

/-- A transport right after `spawn` inside `start` (lines 83-108): no
handler registered, not ready, start and call promises pending. -/
def freshTransport : Transport :=
  ⟨[], false, false, PromiseStatus.pending, PromiseStatus.pending⟩

/-- Model of `PythonRunner.cancel` (lines 348-362) on the queue model: every entry
still in `queryQueue` is rejected with the session-terminated message and
the queue is emptied; `isExecutingQuery` is cleared, but nothing settles
the entry currently in flight — the promise of its `sendCommand` is
abandoned together with the killed process. -/
def cancelRunner (s : RunnerState) : RunnerState × List Ev :=
  (⟨[], none⟩,
   s.queryQueue.map
     (fun q => Ev.rejected q.resultSetId "Query cancelled - session terminated"))

/-- C4 (evaluating the code at the failing inputs): (a) a spawn failure
does reject the start promise — the only rejection path the code
implements; (b) when the process exits before READY while `start`
awaits, the exit handler leaves the start promise pending forever; (c)
when the process exits while an EXECUTE command awaits its response, the
registered one-shot handlers stay in place and the command promise stays
pending — nothing rejects it with WorkerExited; (d) `cancel` rejects the
still-queued entries but emits nothing for the in-flight entry, whose
promise is likewise left pending rather than rejected with
SessionTerminated. -/
theorem worker_exit_leaves_calls_pending :
    (onProcessError "spawn ENOENT" freshTransport).startStatus
        = PromiseStatus.rejectedWith "spawn ENOENT" ∧
    ((onProcessExit freshTransport).startStatus = PromiseStatus.pending ∧
     (onProcessExit freshTransport).readyResolved = false) ∧
    ((onProcessExit (sendCommand "EXECUTE" freshTransport)).callStatus
        = PromiseStatus.pending ∧
     (onProcessExit (sendCommand "EXECUTE" freshTransport)).messageHandlers
        = ["EXECUTE_RESULT", "ERROR"] ∧
     (onProcessExit (sendCommand "EXECUTE" freshTransport)).isReady
        = false) ∧
    (cancelRunner ⟨[⟨"SELECT 2", "B"⟩], some ⟨"SELECT 1", "A"⟩⟩).2
        = [Ev.rejected "B" "Query cancelled - session terminated"] := by
  decide

/-! ## SessionManager (src/pythonRunner.ts lines 372-459) -/

/-- The session registry: the `sessions` map (fileUri to runner id; every
runner stored in the scenarios below is running, i.e. `isRunning()` is
true), a counter handing out fresh runner ids, and the number of `spawn`
calls made so far. -/
structure SMState where
  sessions : List (String × Nat)
  nextId : Nat
  spawns : Nat
deriving DecidableEq, Repr

/-- Progress of one `getOrCreateSession(fileUri)` call. -/
inductive GoCPhase where
  | starting (rid : Nat)
  | returned (rid : Nat)
  | failed
deriving DecidableEq, Repr

/-- The synchronous head of `getOrCreateSession` (lines 380-401): look up
the map; a stored running session is returned immediately; otherwise a
new `PythonRunner` is constructed and `start(dsn)` begins — which spawns
the worker process — and the call suspends awaiting the handshake.
There is no in-progress-creation bookkeeping of any kind. -/
def gocLookup (st : SMState) (key : String) : SMState × GoCPhase :=
  match st.sessions.lookup key with
  | some rid => (st, GoCPhase.returned rid)
  | none =>
      ({ st with nextId := st.nextId + 1, spawns := st.spawns + 1 },
       GoCPhase.starting st.nextId)

/-- Resumption of `getOrCreateSession` after `await session.start(dsn)`
(lines 400-406): on success the session is stored (`sessions.set`
replaces any entry for the key) and returned; on failure nothing is
stored and the error is rethrown. -/
def gocResume (st : SMState) (key : String) (rid : Nat) (ok : Bool) :
    SMState × GoCPhase :=
  if ok then
    ({ st with sessions :=
        (key, rid) :: st.sessions.filter (fun p => decide (p.1 ≠ key)) },
     GoCPhase.returned rid)
  else (st, GoCPhase.failed)

/-- The file key used in the C5 scenario. -/
def c5Key : String := "file:///a.sql"

/-- The overlapping interleaving of C5: both calls run their map lookup
while the registry is still empty, then both finish `start`
successfully. -/
def overlapScenario (key : String) : SMState :=
  let s1 := (gocLookup ⟨[], 0, 0⟩ key).1
  let s2 := (gocLookup s1 key).1
  let s3 := (gocResume s2 key 0 true).1
  (gocResume s3 key 1 true).1

/-- C5 counterexample: two `getOrCreateSession` calls for the same key
that overlap while the first creation is in progress each observe no
stored session and each construct a runner and spawn a worker: the
scenario performs two spawns, not one.  Creation is not memoized. -/
theorem getOrCreateSession_overlap_two_spawns :
    (gocLookup ⟨[], 0, 0⟩ c5Key).2 = GoCPhase.starting 0 ∧
    (gocLookup (gocLookup ⟨[], 0, 0⟩ c5Key).1 c5Key).2
      = GoCPhase.starting 1 ∧
    (overlapScenario c5Key).spawns = 2 ∧
    ¬ (overlapScenario c5Key).spawns = 1 := by
  decide

/-- C5 (amended): overlapping `getOrCreateSession` calls for one key are
not memoized — each spawns its own worker (two spawns for the
interleaving above, the later `sessions.set` overwriting the earlier) —
while strictly sequential calls do reuse (the second call returns the
stored session with no further spawn); on creation failure no entry is
stored, so the next call retries cleanly. -/
theorem getOrCreateSession_not_memoized (st : SMState) (key : String)
    (rid : Nat) :
    (gocResume st key rid false).1 = st ∧
    (gocResume st key rid false).2 = GoCPhase.failed ∧
    (gocLookup (gocResume st key rid true).1 key).2
      = GoCPhase.returned rid ∧
    (gocLookup (gocResume st key rid true).1 key).1.spawns
      = (gocResume st key rid true).1.spawns ∧
    (gocLookup (gocLookup ⟨[], 0, 0⟩ key).1 key).1.spawns = 2 := by
  refine ⟨rfl, rfl, ?_, ?_, ?_⟩
  · simp [gocLookup, gocResume, List.lookup]
  · simp [gocLookup, gocResume, List.lookup]
  · simp [gocLookup, List.lookup]

/-- Model of `SessionManager.cancelSession` (lines 436-442): look up the session,
call its destructive `cancel()` — which kills the worker process — and
delete the registry entry. -/
structure CancelResult where
  sessions : List (String × Nat)
  killedRunner : Option Nat
deriving DecidableEq, Repr

/-- The registry part of `cancelSession`. -/
def cancelSession (sessions : List (String × Nat)) (key : String) :
    CancelResult :=
  match sessions.lookup key with
  | some rid => ⟨sessions.filter (fun p => decide (p.1 ≠ key)), some rid⟩
  | none => ⟨sessions, none⟩

/-- The notification `SqlExecutor.cancelQuery` shows the user after a
successful session cancel (src/sqlExecutor.ts lines 527-529). -/
def cancelQueryNotification : String :=
  "Query cancelled. Database session remains active."

/-- C6 (evaluating the code at the failing input): cancelling the session
of an open file kills its worker (runner 7) and removes the registry
entry, and the next `getOrCreateSession` for the same file constructs a
brand-new runner (fresh id 8, one more spawn — never reuse).  But the
message shown to the user says the database session remains active: the
user is not told that the session state (temp tables) was lost — the
notification asserts the opposite. -/
theorem cancelSession_kills_but_notifies_active :
    (cancelSession [("file:///a.sql", 7)] "file:///a.sql").killedRunner
        = some 7 ∧
    (cancelSession [("file:///a.sql", 7)] "file:///a.sql").sessions = [] ∧
    (gocLookup ⟨[], 8, 1⟩ "file:///a.sql").2 = GoCPhase.starting 8 ∧
    ¬ (8 = 7) ∧
    (gocLookup ⟨[], 8, 1⟩ "file:///a.sql").1.spawns = 2 ∧
    cancelQueryNotification
      = "Query cancelled. Database session remains active." := by
  decide

/-- The registry content for the C8 scenario: twelve open sessions for
twelve distinct files. -/
def c8Sessions : List (String × Nat) :=
  [("f1", 1), ("f2", 2), ("f3", 3), ("f4", 4), ("f5", 5), ("f6", 6),
   ("f7", 7), ("f8", 8), ("f9", 9), ("f10", 10), ("f11", 11), ("f12", 12)]

/-- C8 (evaluating the code at the failing input): with twelve sessions
already open, `getOrCreateSession` for a thirteenth file performs no
capacity check — it spawns a worker, stores a thirteenth session and
returns it successfully; no capacity error is raised and no existing
session is evicted. -/
theorem no_session_ceiling_enforced :
    c8Sessions.length = 12 ∧
    (gocLookup ⟨c8Sessions, 13, 12⟩ "f13").2 = GoCPhase.starting 13 ∧
    (gocResume (gocLookup ⟨c8Sessions, 13, 12⟩ "f13").1 "f13" 13 true).2
      = GoCPhase.returned 13 ∧
    (gocResume (gocLookup ⟨c8Sessions, 13, 12⟩ "f13").1 "f13"
        13 true).1.sessions.length = 13 ∧
    (∀ p ∈ c8Sessions,
       p ∈ (gocResume (gocLookup ⟨c8Sessions, 13, 12⟩ "f13").1 "f13"
              13 true).1.sessions) := by
  decide

end SqlRunner
